import Mathlib

/-!
Verification development for the `redis-clients` convenience layer.

The wrapper's own logic (src/redis.js and src/commands.js) is shallowly
embedded below: pure string manipulation becomes Lean functions on
`String`/`List`, the module-level mutable state of redis.js becomes an
explicit `RedisState` record with state-passing operations, and the
behavior of the wrapped redis client (key listing, deletion, command
callbacks) is modelled by explicit store values passed to the operations.
Impure inputs (uuid.v1(), the store's replies, the glob matcher of the
redis KEYS command) are parameters of the corresponding definitions.
-/

namespace RedisClients

/-- Option bag of the wrapper (`defaults` in src/redis.js lines 35-42).
The source field named "prefix" is called `pfx` here ("prefix" is a Lean
keyword); `port`/`host` embed the nested `redis` connection defaults. -/
structure Options where
  pfx : String
  separator : String
  port : Nat
  host : String
  deriving Repr, DecidableEq

/-- The module's original default options (src/redis.js lines 35-42),
the constant local `defaults` that `reset` restores. -/
def defaultOptions : Options :=
  { pfx := "r", separator := ":", port := 6379, host := "127.0.0.1" }

/-- JS `Array.prototype.join(sep)` on an array of strings: elements
interleaved with the separator, the empty array giving `""`. -/
def joinWith (sep : String) : List String → String
  | [] => ""
  | [a] => a
  | a :: b :: rest => a ++ sep ++ joinWith sep (b :: rest)

/-- One vararg of `key(...args)`: a single segment or an array of
segments (JS `[].concat(...args)` flattens arrays one level). -/
inductive KeyArg where
  | one (s : String)
  | many (l : List String)
  deriving Repr, DecidableEq

/-- JS `[].concat(...args)`: one-level flattening of the vararg list. -/
def flattenArgs : List KeyArg → List String
  | [] => []
  | KeyArg.one s :: rest => s :: flattenArgs rest
  | KeyArg.many l :: rest => l ++ flattenArgs rest

/-- `key(...args)` of src/redis.js lines 217-234: flatten the varargs,
fall back to a fresh uuid segment when no segment remains, prepend the
configured namespace, and join with the configured separator.  The
impure `uuid.v1()` call is the explicit `uuid` argument. -/
def keyFn (opts : Options) (uuid : String) (args : List KeyArg) : String :=
  let key := flattenArgs args
  let key := if key.length = 0 then key ++ [uuid] else key
  joinWith opts.separator ([opts.pfx] ++ key)

/-- JS `String.prototype.split` with a one-character separator, on the
character list: every occurrence splits, empty pieces are kept. -/
def splitCharAux (c : Char) : List Char → List (List Char)
  | [] => [[]]
  | a :: rest =>
    if a = c then [] :: splitCharAux c rest
    else
      match splitCharAux c rest with
      | [] => [[a]]
      | g :: gs => (a :: g) :: gs

/-- String-level wrapper of `splitCharAux`. -/
def splitChar (c : Char) (s : String) : List String :=
  (splitCharAux c s.data).map String.mk

theorem splitCharAux_ne_nil (c : Char) (l : List Char) : splitCharAux c l ≠ [] := by
  cases l with
  | nil => simp [splitCharAux]
  | cons a rest =>
    simp only [splitCharAux]
    split
    · simp
    · split
      · simp
      · simp

theorem splitCharAux_no_sep (c : Char) (l : List Char) (h : ¬ c ∈ l) :
    splitCharAux c l = [l] := by
  induction l with
  | nil => rfl
  | cons a rest ih =>
    simp only [List.mem_cons, not_or] at h
    simp only [splitCharAux]
    rw [if_neg (by intro e; exact h.1 e.symm)]
    rw [ih h.2]

theorem splitCharAux_append (c : Char) (l₁ l₂ : List Char) (h : ¬ c ∈ l₁) :
    splitCharAux c (l₁ ++ c :: l₂) = l₁ :: splitCharAux c l₂ := by
  induction l₁ with
  | nil => simp [splitCharAux]
  | cons a rest ih =>
    simp only [List.mem_cons, not_or] at h
    simp only [List.cons_append, splitCharAux]
    rw [if_neg (by intro e; exact h.1 e.symm)]
    simp only [List.append_eq]
    rw [ih h.2]

theorem joinWith_cons (sep a : String) (l : List String) (h : l ≠ []) :
    joinWith sep (a :: l) = a ++ sep ++ joinWith sep l := by
  cases l with
  | nil => exact absurd rfl h
  | cons b t => rfl

theorem splitChar_joinWith (c : Char) (segs : List String) (hne : segs ≠ [])
    (h : ∀ s ∈ segs, c ∉ s.data) :
    splitChar c (joinWith (String.mk [c]) segs) = segs := by
  induction segs with
  | nil => exact absurd rfl hne
  | cons a rest ih =>
    cases rest with
    | nil =>
      simp only [joinWith, splitChar]
      rw [splitCharAux_no_sep c a.data (h a (by simp))]
      simp
    | cons b t =>
      rw [joinWith_cons _ _ _ (by simp)]
      have hdata : (a ++ String.mk [c] ++ joinWith (String.mk [c]) (b :: t)).data
          = a.data ++ c :: (joinWith (String.mk [c]) (b :: t)).data := by
        simp [String.data_append]
      simp only [splitChar]
      rw [hdata, splitCharAux_append c _ _ (h a (by simp)), List.map_cons]
      have ht := ih (by simp) (fun s hs => h s (List.mem_cons_of_mem a hs))
      simp only [splitChar] at ht
      rw [ht]

/-- C10: key() never returns an empty or unprefixed key: every result
begins with the configured namespace followed by the separator; with no
arguments the fresh uuid becomes the only segment, so under the default
options the result splits on the separator into exactly the two segments
`"r"` and the uuid. -/
theorem key_never_unprefixed (opts : Options) (uuid : String) (args : List KeyArg) :
    (∃ rest, keyFn opts uuid args = opts.pfx ++ opts.separator ++ rest) ∧
    keyFn opts uuid [] = opts.pfx ++ opts.separator ++ uuid ∧
    (':' ∉ uuid.data → splitChar ':' (keyFn defaultOptions uuid []) = ["r", uuid]) := by
  refine ⟨?_, ?_, ?_⟩
  · unfold keyFn
    cases hf : flattenArgs args with
    | nil =>
      refine ⟨uuid, ?_⟩
      simp [hf, joinWith]
    | cons a t =>
      refine ⟨joinWith opts.separator (a :: t), ?_⟩
      simp [hf, joinWith_cons]
  · rfl
  · intro h
    have : keyFn defaultOptions uuid [] = joinWith (String.mk [':']) ["r", uuid] := rfl
    rw [this, splitChar_joinWith ':' ["r", uuid] (by simp)]
    intro s hs
    rcases List.mem_cons.mp hs with rfl | hs
    · decide
    · rcases List.mem_cons.mp hs with rfl | hs
      · exact h
      · exact absurd hs (List.not_mem_nil s)

/-- Witness for `key_never_unprefixed` at a concrete uuid. -/
theorem key_never_unprefixed_witness :
    splitChar ':' (keyFn defaultOptions "4f2a-11e7" []) = ["r", "4f2a-11e7"] :=
  (key_never_unprefixed defaultOptions "4f2a-11e7" []).2.2 (by decide)

/-! JSON values and the model of JSON.stringify / JSON.parse used by the
scalar (de)serialization shim of src/commands.js.  JS numbers are
modelled as integers: non-integer floating point literals are not
exactly representable here, so the number model covers the integer
fragment of JSON. -/

/-- A JSON value (also the model of the plain JS values the commands
operate on). -/
inductive JVal where
  | null
  | bool (b : Bool)
  | num (n : Int)
  | str (s : String)
  | arr (l : List JVal)
  | obj (l : List (String × JVal))
  deriving Repr

mutual
def JVal.beq : JVal → JVal → Bool
  | .null, .null => true
  | .bool a, .bool b => a == b
  | .num a, .num b => a == b
  | .str a, .str b => a == b
  | .arr a, .arr b => JVal.beqL a b
  | .obj a, .obj b => JVal.beqO a b
  | _, _ => false
def JVal.beqL : List JVal → List JVal → Bool
  | [], [] => true
  | a :: as, b :: bs => JVal.beq a b && JVal.beqL as bs
  | _, _ => false
def JVal.beqO : List (String × JVal) → List (String × JVal) → Bool
  | [], [] => true
  | (k, a) :: as, (k2, b) :: bs => k == k2 && JVal.beq a b && JVal.beqO as bs
  | _, _ => false
end

mutual
theorem JVal.beq_iff : ∀ a b, JVal.beq a b = true ↔ a = b
  | .null, b => by cases b <;> simp [JVal.beq]
  | .bool x, b => by cases b <;> simp [JVal.beq]
  | .num x, b => by cases b <;> simp [JVal.beq]
  | .str x, b => by cases b <;> simp [JVal.beq]
  | .arr l, b => by
    cases b <;> simp [JVal.beq]
    exact JVal.beqL_iff l _
  | .obj l, b => by
    cases b <;> simp [JVal.beq]
    exact JVal.beqO_iff l _
theorem JVal.beqL_iff : ∀ a b, JVal.beqL a b = true ↔ a = b
  | [], b => by cases b <;> simp [JVal.beqL]
  | a :: as, [] => by simp [JVal.beqL]
  | a :: as, b :: bs => by
    simp [JVal.beqL, JVal.beq_iff a b, JVal.beqL_iff as bs]
theorem JVal.beqO_iff : ∀ a b, JVal.beqO a b = true ↔ a = b
  | [], b => by cases b <;> simp [JVal.beqO]
  | a :: as, [] => by simp [JVal.beqO]
  | (k, a) :: as, (k2, b) :: bs => by
    simp [JVal.beqO, JVal.beq_iff a b, JVal.beqO_iff as bs, and_assoc]
end

instance : DecidableEq JVal := fun a b => decidable_of_iff _ (JVal.beq_iff a b)

/-- The decimal digit character of `n < 10`. -/
def digitChar (n : Nat) : Char := Char.ofNat (48 + n)

/-- Decimal digits of a natural number, most significant first (the
`fuel` argument only drives the recursion; `natToDigits` supplies enough
of it). -/
def natToDigitsAux : Nat → Nat → List Char
  | 0, _ => []
  | fuel + 1, n =>
    if n < 10 then [digitChar n]
    else natToDigitsAux fuel (n / 10) ++ [digitChar (n % 10)]

def natToDigits (n : Nat) : List Char := natToDigitsAux (n + 1) n

/-- JS `String(i)` on a natural number index. -/
def natStr (n : Nat) : String := String.mk (natToDigits n)

/-- JSON text of an integer number. -/
def intToChars (i : Int) : List Char :=
  if i < 0 then '-' :: natToDigits i.natAbs else natToDigits i.natAbs

/-- Lowercase hex digit of `n < 16`. -/
def hexDigit (n : Nat) : Char :=
  if n < 10 then Char.ofNat (48 + n) else Char.ofNat (87 + n)

/-- JSON.stringify's escaping of one string character. -/
def escapeChar (ch : Char) : List Char :=
  if ch = '"' then ['\\', '"']
  else if ch = '\\' then ['\\', '\\']
  else if ch = '\x08' then ['\\', 'b']
  else if ch = '\x0c' then ['\\', 'f']
  else if ch = '\n' then ['\\', 'n']
  else if ch = '\r' then ['\\', 'r']
  else if ch = '\t' then ['\\', 't']
  else if ch.toNat < 32 then
    ['\\', 'u', '0', '0', hexDigit (ch.toNat / 16), hexDigit (ch.toNat % 16)]
  else [ch]

def escList : List Char → List Char
  | [] => []
  | c :: r => escapeChar c ++ escList r

mutual
/-- JSON.stringify (model): the JSON text of a value, as characters. -/
def encodeChars : JVal → List Char
  | JVal.null => ['n', 'u', 'l', 'l']
  | JVal.bool true => ['t', 'r', 'u', 'e']
  | JVal.bool false => ['f', 'a', 'l', 's', 'e']
  | JVal.num i => intToChars i
  | JVal.str s => '"' :: escList s.data ++ ['"']
  | JVal.arr l => '[' :: encodeItems l ++ [']']
  | JVal.obj l => '\x7b' :: encodeMembers l ++ ['\x7d']
def encodeItems : List JVal → List Char
  | [] => []
  | [x] => encodeChars x
  | x :: y :: ys => encodeChars x ++ ',' :: encodeItems (y :: ys)
def encodeMembers : List (String × JVal) → List Char
  | [] => []
  | [(k, v)] => '"' :: escList k.data ++ '"' :: ':' :: encodeChars v
  | (k, v) :: e :: es =>
    ('"' :: escList k.data ++ '"' :: ':' :: encodeChars v) ++ ',' :: encodeMembers (e :: es)
end

def encodeJson (v : JVal) : String := String.mk (encodeChars v)

def isDigitCh (c : Char) : Bool := 48 ≤ c.toNat && c.toNat ≤ 57

def isWsCh (c : Char) : Bool := c = ' ' || c = '\t' || c = '\n' || c = '\r'

def skipWs : List Char → List Char
  | [] => []
  | c :: r => if isWsCh c then skipWs r else c :: r

/-- Read a maximal run of decimal digits onto an accumulator. -/
def parseDigits : List Char → Nat → Nat × List Char
  | [], acc => (acc, [])
  | c :: r, acc =>
    if isDigitCh c then parseDigits r (acc * 10 + (c.toNat - 48)) else (acc, c :: r)

/-- JSON natural-number literal: either a single `0` or a digit run not
starting with `0`. -/
def parseNat : List Char → Option (Nat × List Char)
  | [] => none
  | c :: r =>
    if c = '0' then some (0, r)
    else if isDigitCh c then some (parseDigits r (c.toNat - 48))
    else none

def hexVal (c : Char) : Option Nat :=
  if 48 ≤ c.toNat && c.toNat ≤ 57 then some (c.toNat - 48)
  else if 97 ≤ c.toNat && c.toNat ≤ 102 then some (c.toNat - 87)
  else if 65 ≤ c.toNat && c.toNat ≤ 70 then some (c.toNat - 55)
  else none

/-- Named JSON string escapes. -/
def escDecode : Char → Option Char
  | '"' => some '"'
  | '\\' => some '\\'
  | '/' => some '/'
  | 'b' => some '\x08'
  | 'f' => some '\x0c'
  | 'n' => some '\n'
  | 'r' => some '\r'
  | 't' => some '\t'
  | _ => none

def consFirst (ch : Char) : Option (List Char × List Char) → Option (List Char × List Char)
  | some (l, r) => some (ch :: l, r)
  | none => none

/-- Body of a JSON string after the opening quote, up to and including
the closing quote.  A `\uXXXX` escape naming a surrogate code unit is
rejected: JS would build a lone surrogate, which no unicode scalar value
models. -/
def parseStrChars : List Char → Option (List Char × List Char)
  | [] => none
  | c :: r =>
    if c = '"' then some ([], r)
    else if c = '\\' then
      match r with
      | 'u' :: a :: b :: c2 :: d :: r2 =>
        (match hexVal a, hexVal b, hexVal c2, hexVal d with
         | some ha, some hb, some hc, some hd =>
           let n := ((ha * 16 + hb) * 16 + hc) * 16 + hd
           if n < 0xd800 || 0xe000 ≤ n then consFirst (Char.ofNat n) (parseStrChars r2)
           else none
         | _, _, _, _ => none)
      | e :: r2 =>
        (match escDecode e with
         | some ch => consFirst ch (parseStrChars r2)
         | none => none)
      | [] => none
    else if c.toNat < 32 then none
    else consFirst c (parseStrChars r)

/-- Expect these exact characters as a literal text. -/
def expectChars : List Char → List Char → Option (List Char)
  | [], l => some l
  | c :: cs, d :: l => if c = d then expectChars cs l else none
  | _ :: _, [] => none

mutual
/-- JSON.parse (model): recursive descent over the character list; the
fuel argument only drives the recursion, `parseJson` supplies enough of
it. -/
def parseVal : Nat → List Char → Option (JVal × List Char)
  | 0, _ => none
  | fuel + 1, l =>
    match skipWs l with
    | [] => none
    | c :: r =>
      if c = 'n' then
        match expectChars ['u', 'l', 'l'] r with
        | some r2 => some (JVal.null, r2)
        | none => none
      else if c = 't' then
        match expectChars ['r', 'u', 'e'] r with
        | some r2 => some (JVal.bool true, r2)
        | none => none
      else if c = 'f' then
        match expectChars ['a', 'l', 's', 'e'] r with
        | some r2 => some (JVal.bool false, r2)
        | none => none
      else if c = '"' then
        match parseStrChars r with
        | some (cs, r2) => some (JVal.str (String.mk cs), r2)
        | none => none
      else if c = '[' then
        match skipWs r with
        | [] => none
        | d :: r2 =>
          if d = ']' then some (JVal.arr [], r2)
          else
            match parseItems fuel (d :: r2) with
            | some (vs, r3) => some (JVal.arr vs, r3)
            | none => none
      else if c = '\x7b' then
        match skipWs r with
        | [] => none
        | d :: r2 =>
          if d = '\x7d' then some (JVal.obj [], r2)
          else
            match parseMembers fuel (d :: r2) with
            | some (ms, r3) => some (JVal.obj ms, r3)
            | none => none
      else if c = '-' then
        match parseNat r with
        | some (n, r2) => some (JVal.num (-(n : Int)), r2)
        | none => none
      else if isDigitCh c then
        match parseNat (c :: r) with
        | some (n, r2) => some (JVal.num ((n : Int)), r2)
        | none => none
      else none
def parseItems : Nat → List Char → Option (List JVal × List Char)
  | 0, _ => none
  | fuel + 1, l =>
    match parseVal fuel l with
    | some (v, r) =>
      (match skipWs r with
       | [] => none
       | d :: r2 =>
         if d = ',' then
           match parseItems fuel r2 with
           | some (vs, r3) => some (v :: vs, r3)
           | none => none
         else if d = ']' then some ([v], r2)
         else none)
    | none => none
def parseMembers : Nat → List Char → Option (List (String × JVal) × List Char)
  | 0, _ => none
  | fuel + 1, l =>
    match skipWs l with
    | [] => none
    | c :: r =>
      if c = '"' then
        match parseStrChars r with
        | some (kcs, r2) =>
          (match skipWs r2 with
           | [] => none
           | d :: r3 =>
             if d = ':' then
               match parseVal fuel r3 with
               | some (v, r4) =>
                 (match skipWs r4 with
                  | [] => none
                  | e :: r5 =>
                    if e = ',' then
                      match parseMembers fuel r5 with
                      | some (ms, r6) => some ((String.mk kcs, v) :: ms, r6)
                      | none => none
                    else if e = '\x7d' then some ([(String.mk kcs, v)], r5)
                    else none)
               | none => none
             else none)
        | none => none
      else none
end

/-- JSON.parse on a whole string: the value must consume everything but
trailing whitespace. -/
def parseJson (s : String) : Option JVal :=
  match parseVal (2 * s.data.length + 2) s.data with
  | some (v, r) => if skipWs r = [] then some v else none
  | none => none

/-- `stringify` of src/commands.js lines 27-38: a string is stored
as-is, any other value is JSON-encoded (`JSON.stringify` cannot throw
on these tree-shaped values, so the catch branch is dead here). -/
def stringify : JVal → String
  | JVal.str s => s
  | v => encodeJson v

/-- `parse` of src/commands.js lines 41-50: try `JSON.parse`, and fall
back to the raw string when it throws. -/
def parse (s : String) : JVal :=
  match parseJson s with
  | some v => v
  | none => JVal.str s

/-! Model of the `flat` package (flatten / unflatten with the default
options: delimiter ".", overwrite false, object false) that hmset and
hgetall use for hash values. -/

mutual
def sizeJ : JVal → Nat
  | JVal.arr l => 1 + sizeL l
  | JVal.obj l => 1 + sizeO l
  | _ => 1
def sizeL : List JVal → Nat
  | [] => 0
  | v :: r => sizeJ v + sizeL r
def sizeO : List (String × JVal) → Nat
  | [] => 0
  | (_, v) :: r => sizeJ v + sizeO r
end

/-- flatten's key joining: `prev ? prev + delimiter + key : key`. -/
def joinKey (prev : Option String) (k : String) : String :=
  match prev with
  | none => k
  | some p => p ++ "." ++ k

mutual
/-- flatten's `step` over the entries of one object: a nonempty object
or array value is recursed into, anything else (scalars, empty objects,
empty arrays) is emitted at its joined key. -/
def flattenStep (prev : Option String) : List (String × JVal) → List (String × JVal)
  | [] => []
  | (k, v) :: rest => flattenVal (joinKey prev k) v ++ flattenStep prev rest
def flattenVal (key : String) : JVal → List (String × JVal)
  | JVal.obj (e :: es) => flattenStep (some key) (e :: es)
  | JVal.arr (x :: xs) => flattenArr (some key) 0 (x :: xs)
  | v => [(key, v)]
def flattenArr (prev : Option String) (i : Nat) : List JVal → List (String × JVal)
  | [] => []
  | x :: xs => flattenVal (joinKey prev (natStr i)) x ++ flattenArr prev (i + 1) xs
end

/-- flat's flatten of a top-level target (`Object.keys` of a scalar is
empty; index properties of a string target are outside the model). -/
def flattenTop : JVal → List (String × JVal)
  | JVal.obj l => flattenStep none l
  | JVal.arr l => flattenArr none 0 l
  | _ => []

/-- Modelled from JS `Number(k)`, restricted to the integer fragment:
the empty string maps to 0, an optionally signed decimal digit string to
its value, anything else (floats, exponents, hex, Infinity, ...) to
`none` standing for NaN.  Non-integer numeric key strings are outside
the model. -/
def jsNumInt (s : String) : Option Int :=
  match s.data with
  | [] => some 0
  | '-' :: ds => if ds ≠ [] ∧ ds.all isDigitCh then some (-(digitsToNat ds : Int)) else none
  | '+' :: ds => if ds ≠ [] ∧ ds.all isDigitCh then some ((digitsToNat ds : Int)) else none
  | ds => if ds.all isDigitCh then some ((digitsToNat ds : Int)) else none
where
  digitsToNat (ds : List Char) : Nat := ds.foldl (fun acc c => acc * 10 + (c.toNat - 48)) 0

/-- A path segment of unflatten: a string property or an array index. -/
inductive FKey where
  | ks (s : String)
  | kn (n : Int)
  deriving Repr, DecidableEq

/-- `getkey` of flat's unflatten: a key whose `Number` is not NaN (and
which has no delimiter in it) becomes a numeric key. -/
def getkey (k : String) : FKey :=
  match jsNumInt k with
  | none => FKey.ks k
  | some n => if k.data.contains '.' then FKey.ks k else FKey.kn n

def intStr (n : Int) : String :=
  if n < 0 then "-" ++ natStr n.natAbs else natStr n.natAbs

/-- A numeric key used on a plain object is coerced to its string
property name, as in JS. -/
def fkeyStr : FKey → String
  | FKey.ks s => s
  | FKey.kn n => intStr n

def lookupObj : List (String × JVal) → String → Option JVal
  | [], _ => none
  | (k, v) :: rest, key => if k = key then some v else lookupObj rest key

def setObjKey : List (String × JVal) → String → JVal → List (String × JVal)
  | [], key, v => [(key, v)]
  | (k, w) :: rest, key, v =>
    if k = key then (key, v) :: rest else (k, w) :: setObjKey rest key v

/-- JS array index assignment; assigning past the end pads with holes
(modelled as null; such sparse writes only arise outside the wellformed
domain of the round-trip theorem). -/
def setArrIdx (l : List JVal) (n : Nat) (v : JVal) : List JVal :=
  if n < l.length then l.set n v
  else (l ++ List.replicate (n - l.length) JVal.null) ++ [v]

/-- `recipient[key1]` of unflatten's walk. String properties of arrays
are outside the model. -/
def getSlot : JVal → FKey → Option JVal
  | JVal.obj l, k => lookupObj l (fkeyStr k)
  | JVal.arr l, FKey.kn n => if n < 0 then none else l.get? n.toNat
  | _, _ => none

/-- `recipient[key1] = v` of unflatten's walk. -/
def setSlot : JVal → FKey → JVal → JVal
  | JVal.obj l, k, v => JVal.obj (setObjKey l (fkeyStr k) v)
  | JVal.arr l, FKey.kn n, v =>
    if n < 0 then JVal.arr l else JVal.arr (setArrIdx l n.toNat v)
  | t, _, _ => t

def isContainer : JVal → Bool
  | JVal.obj _ => true
  | JVal.arr _ => true
  | _ => false

/-- The walk of flat's unflatten for one flattened key: descend along
the split segments, creating `{}` / `[]` shells at undefined slots,
bailing out (leaving the key unprocessed, but the shells created so far
in place) when a defined non-container value is hit, and assigning the
value at the final segment. -/
def insertWalk (recipient : JVal) (segs : List FKey) (value : JVal) : JVal :=
  match segs with
  | [] => recipient
  | [k] => setSlot recipient k value
  | k1 :: k2 :: rest =>
    match getSlot recipient k1 with
    | some sub =>
      if isContainer sub then setSlot recipient k1 (insertWalk sub (k2 :: rest) value)
      else recipient
    | none =>
      let fresh : JVal :=
        match k2 with
        | FKey.kn _ => JVal.arr []
        | FKey.ks _ => JVal.obj []
      setSlot recipient k1 (insertWalk fresh (k2 :: rest) value)

def splitDot (s : String) : List String := splitChar '.' s

/-- JS stable sort of the flattened keys by string length (unflatten
sorts its keys shortest-first before inserting). -/
def insertByLen (x : String × JVal) : List (String × JVal) → List (String × JVal)
  | [] => [x]
  | y :: ys => if y.1.length ≤ x.1.length then y :: insertByLen x ys else x :: y :: ys

def sortByLen : List (String × JVal) → List (String × JVal)
  | [] => []
  | x :: xs => insertByLen x (sortByLen xs)

mutual
/-- flat's unflatten: fold the length-sorted entries of a flat object
into a fresh result, re-unflattening each entry value ("messy objects");
a non-object target is returned unchanged.  The fuel only drives the
recursion; `unflatten` supplies enough of it. -/
def unflatFuel : Nat → JVal → JVal
  | 0, t => t
  | fuel + 1, t =>
    match t with
    | JVal.obj entries => unflatEntries fuel (sortByLen entries) (JVal.obj [])
    | _ => t
def unflatEntries : Nat → List (String × JVal) → JVal → JVal
  | _, [], acc => acc
  | 0, _ :: _, acc => acc
  | fuel + 1, (k, v) :: rest, acc =>
    unflatEntries fuel rest
      (insertWalk acc ((splitDot k).map getkey) (unflatFuel fuel v))
end

def unflatten (t : JVal) : JVal := unflatFuel (sizeJ t) t

/-! Canonical form: object entries sorted by key, recursively.  Two
JS objects that differ only in property insertion order are deeply
equal; `canon` equates exactly those. -/

/-- Lexicographic order on character lists (a computable total order
used only to pick the canonical key order). -/
def charListLe : List Char → List Char → Bool
  | [], _ => true
  | _ :: _, [] => false
  | a :: as, b :: bs => if a = b then charListLe as bs else decide (a.toNat < b.toNat)

def strLeb (a b : String) : Bool := charListLe a.data b.data

def insertByKey (x : String × JVal) : List (String × JVal) → List (String × JVal)
  | [] => [x]
  | y :: ys => if strLeb x.1 y.1 then x :: y :: ys else y :: insertByKey x ys

def sortByKey : List (String × JVal) → List (String × JVal)
  | [] => []
  | x :: xs => insertByKey x (sortByKey xs)

mutual
def canon : JVal → JVal
  | JVal.arr l => JVal.arr (canonL l)
  | JVal.obj l => JVal.obj (sortByKey (canonO l))
  | v => v
def canonL : List JVal → List JVal
  | [] => []
  | v :: r => canon v :: canonL r
def canonO : List (String × JVal) → List (String × JVal)
  | [] => []
  | (k, v) :: r => (k, canon v) :: canonO r
end

/-- A delimiter-free, non-numeric object key: one that flat's unflatten
maps back to the same string property. -/
def goodKey (k : String) : Bool :=
  !(k.data.contains '.') && (jsNumInt k).isNone

def keysUniq : List String → Bool
  | [] => true
  | k :: r => !(r.contains k) && keysUniq r

mutual
/-- Wellformed hash values: scalars, empty objects, or plain objects
with good, pairwise distinct keys and wellformed values (arrays are
excluded). -/
def wfVal : JVal → Bool
  | JVal.arr _ => false
  | JVal.obj l => wfEntries l && keysUniq (l.map Prod.fst)
  | _ => true
def wfEntries : List (String × JVal) → Bool
  | [] => true
  | (k, v) :: r => goodKey k && wfVal v && wfEntries r
end

/-! The command helpers of src/commands.js, and the connection factory
state of src/redis.js. -/

/-- An error delivered to a user callback: either the error object the
underlying store client passed (identified by a tag), or one the
wrapper constructed itself. -/
inductive JsError where
  | fromStore (e : Nat)
  | fromWrapper (msg : String) (status : Nat)
  deriving Repr, DecidableEq

def JsError.isFromStore : JsError → Bool
  | JsError.fromStore _ => true
  | _ => false

/-- A JS argument of a command: a plain value, a function (identified
by a tag), or an omitted argument. -/
inductive JsIn where
  | val (v : JVal)
  | fn (f : Nat)
  | undef
  deriving Repr, DecidableEq

def JsIn.isFunction : JsIn → Bool
  | JsIn.fn _ => true
  | _ => false

/-- The key argument of a command: a function, a single string key, or
an array of string segments (what `redis.key` is fed). -/
inductive KeyIn where
  | fnK (f : Nat)
  | strK (s : String)
  | arrK (l : List String)
  deriving Repr, DecidableEq

def keyArgsOf : KeyIn → List KeyArg
  | KeyIn.fnK _ => []
  | KeyIn.strK s => [KeyArg.one s]
  | KeyIn.arrK l => [KeyArg.many l]

/-- One argument of the client command finally issued. -/
inductive StoreArg where
  | s (x : String)
  | n (x : Int)
  | hash (fields : List (String × JVal))
  | cb
  deriving Repr, DecidableEq

/-- JS truthiness of a prepared command argument (what `_.compact`
keeps). -/
def StoreArg.truthy : StoreArg → Bool
  | StoreArg.s x => decide (x ≠ "")
  | StoreArg.n x => decide (x ≠ 0)
  | StoreArg.hash _ => true
  | StoreArg.cb => true

/-- `_.compact` over possibly-undefined prepared arguments. -/
def compactArgs (l : List (Option StoreArg)) : List StoreArg :=
  (l.filterMap id).filter StoreArg.truthy

/-- What a command invocation does. -/
inductive CmdOutcome where
  | invoked (f : Nat)            -- the function argument was returned applied to no arguments; no store command was issued
  | cmd (args : List StoreArg)   -- the client command was issued with these arguments
  | threw                        -- the invocation raised before reaching the client
  deriving Repr, DecidableEq

/-- `set` of src/commands.js lines 71-113. -/
def setModel (opts : Options) (uuid : String) (key : KeyIn) (value : JsIn)
    (expiry time strategy done : JsIn) : CmdOutcome :=
  match key with
  | KeyIn.fnK f => CmdOutcome.invoked f
  | _ =>
    match value with
    | JsIn.fn f => CmdOutcome.invoked f
    | _ =>
      let _key := keyFn opts uuid (keyArgsOf key)
      let _value : Option StoreArg :=
        match value with
        | JsIn.val v => some (StoreArg.s (stringify v))
        | _ => none                    -- JSON.stringify(undefined) is undefined
      let _expiry : Option StoreArg :=
        match expiry with
        | JsIn.val (JVal.str s) => if s ≠ "" then some (StoreArg.s s) else none
        | _ => none
      let _time : Option StoreArg :=
        match time with
        | JsIn.val (JVal.num n) => if n ≠ 0 then some (StoreArg.n n) else none
        | _ => none
      let _strategy : Option StoreArg :=
        match strategy with
        | JsIn.val (JVal.str s) => if s ≠ "" then some (StoreArg.s s) else none
        | _ => none
      let _ := done
      CmdOutcome.cmd (compactArgs
        [some (StoreArg.s _key), _value, _expiry, _time, _strategy, some StoreArg.cb])

/-- The callback `set` wires to the client: it forwards the client's
error unchanged together with the original value. -/
def setCb (value : JVal) (error : Option JsError) : Option JsError × JVal :=
  (error, value)

/-- `get` of src/commands.js lines 128-156. -/
def getModel (opts : Options) (uuid : String) (key : KeyIn) (done : JsIn) : CmdOutcome :=
  match key with
  | KeyIn.fnK f => CmdOutcome.invoked f
  | _ =>
    let _ := done
    CmdOutcome.cmd (compactArgs
      [some (StoreArg.s (keyFn opts uuid (keyArgsOf key))), some StoreArg.cb])

/-- The callback `get` wires to the client: the client's error is
forwarded unchanged and the reply is run through `parse`
(`JSON.parse(null)` is null in JS, whence the missing-key case). -/
def getCb (error : Option JsError) (reply : Option String) : Option JsError × JVal :=
  (error,
   match reply with
   | some s => parse s
   | none => JVal.null)

/-- `hmset` of src/commands.js lines 173-206. -/
def hmsetModel (opts : Options) (uuid : String) (key : KeyIn) (value : JsIn)
    (done : JsIn) : CmdOutcome :=
  match key with
  | KeyIn.fnK f => CmdOutcome.invoked f
  | _ =>
    match value with
    | JsIn.fn f => CmdOutcome.invoked f
    | JsIn.undef => CmdOutcome.threw   -- flat(undefined) raises a TypeError
    | JsIn.val v =>
      let _ := done
      CmdOutcome.cmd (compactArgs
        [some (StoreArg.s (keyFn opts uuid (keyArgsOf key))),
         some (StoreArg.hash (flattenTop v)), some StoreArg.cb])

/-- The callback `hmset` wires to the client. -/
def hmsetCb (value : JVal) (error : Option JsError) : Option JsError × JVal :=
  (error, value)

/-- `hgetall` of src/commands.js lines 221-249. -/
def hgetallModel (opts : Options) (uuid : String) (key : KeyIn) (done : JsIn) : CmdOutcome :=
  match key with
  | KeyIn.fnK f => CmdOutcome.invoked f
  | _ =>
    let _ := done
    CmdOutcome.cmd (compactArgs
      [some (StoreArg.s (keyFn opts uuid (keyArgsOf key))), some StoreArg.cb])

/-- The callback `hgetall` wires to the client: the client's error is
forwarded unchanged and the reply is unflattened. -/
def hgetallCb (error : Option JsError) (reply : JVal) : Option JsError × JVal :=
  (error, unflatten reply)

/-- The callback `info` wires to the client (src/redis.js lines
197-206): the client's error is forwarded unchanged together with the
cached `server_info`. -/
def infoCb (error : Option JsError) (serverInfo : JVal) : Option JsError × JVal :=
  (error, serverInfo)

/-- One vararg of `count(...patterns)`: a pattern string or the
callback. -/
inductive CountArg where
  | pat (s : String)
  | cbA
  deriving Repr, DecidableEq

def CountArg.truthy : CountArg → Bool
  | CountArg.pat s => decide (s ≠ "")
  | CountArg.cbA => true

def uniqFirstAux (seen : List CountArg) : List CountArg → List CountArg
  | [] => []
  | a :: r => if a ∈ seen then uniqFirstAux seen r else a :: uniqFirstAux (a :: seen) r

/-- `_.uniq`: first occurrences, in order. -/
def uniqFirst (l : List CountArg) : List CountArg := uniqFirstAux [] l

inductive CountRes where
  | one (n : Nat)
  | many (l : List Nat)
  deriving Repr, DecidableEq

inductive CountOutcome where
  | delivered (error : Option JsError) (result : Option CountRes)  -- done(error, count)
  | notCallable   -- the last effective argument is not a function: calling it raises a TypeError
  deriving Repr, DecidableEq

/-- `count` of src/redis.js lines 249-305.  The per-pattern Lua script
`return #redis.pcall("keys", pattern)` is modelled as the number of
store keys matching the pattern; a failing `exec` is the `execErr`
parameter. -/
def countModel (matchFn : String → String → Bool) (store : List String)
    (execErr : Option Nat) (args : List CountArg) : CountOutcome :=
  let patterns := uniqFirst (args.filter CountArg.truthy)
  match patterns.getLast? with
  | some CountArg.cbA =>
    let pats := patterns.dropLast.filterMap
      (fun a => match a with
                | CountArg.pat s => some s
                | CountArg.cbA => none)
    if pats.length > 0 then
      match execErr with
      | some e => CountOutcome.delivered (some (JsError.fromStore e)) none
      | none =>
        let counts := pats.map (fun p => (store.filter (fun k => matchFn p k)).length)
        CountOutcome.delivered none
          (some (if counts.length > 1 then CountRes.many counts else CountRes.one counts.headI))
    else CountOutcome.delivered (some (JsError.fromWrapper "Missing Count Patterns" 400)) none
  | _ => CountOutcome.notCallable

/-- The pattern argument of `clear`: a string, a function (the callback
passed first), or omitted. -/
inductive ClearIn where
  | str (s : String)
  | f (n : Nat)
  | omitted
  deriving Repr, DecidableEq

/-- clear's argument normalization: a function in pattern position
becomes the callback and the pattern is undefined. -/
def clearNormalize : ClearIn → Option String
  | ClearIn.str s => some s
  | _ => none

/-- `_.compact([prefix, pattern])` of clear: the undefined pattern and
empty strings are dropped. -/
def compactPat (opts : Options) (p : Option String) : List String :=
  (match p with
   | some s => [opts.pfx, s]
   | none => [opts.pfx]).filter (fun s => s ≠ "")

/-- The key pattern clear deletes by (src/redis.js lines 368-373): the
compacted `[prefix, pattern]` joined with the separator when both are
present (a shorter list is a JS array whose string coercion joins with
","), then `*` appended. -/
def clearPattern (opts : Options) (p : Option String) : String :=
  let parts := compactPat opts p
  (if parts.length > 1 then joinWith opts.separator parts else joinWith "," parts) ++ "*"

inductive ClearOutcome where
  | delivered (error : Option JsError)
  deriving Repr, DecidableEq

/-- `clear` of src/redis.js lines 355-403: list the keys matching the
prepared pattern, then delete each of them in one multi transaction.
Returns the store after the call together with the callback outcome. -/
def clearModel (matchFn : String → String → Bool) (opts : Options) (store : List String)
    (p : ClearIn) (keysErr : Option Nat) (execErr : Option Nat) :
    List String × ClearOutcome :=
  let patt := clearPattern opts (clearNormalize p)
  match keysErr with
  | some e => (store, ClearOutcome.delivered (some (JsError.fromStore e)))
  | none =>
    let keys := store.filter (fun k => matchFn patt k)
    match execErr with
    | some e => (store, ClearOutcome.delivered (some (JsError.fromStore e)))
    | none =>
      (keys.foldl (fun st k => st.filter (fun x => x ≠ k)) store,
       ClearOutcome.delivered none)

/-- A glob matcher with `*`, `?` and literal characters, modelled from
the redis KEYS pattern matcher (character classes and escapes are not
exercised by the wrapper or the claims).  The fuel only drives the
recursion; `globMatch` supplies enough of it. -/
def globFuel : Nat → List Char → List Char → Bool
  | 0, _, _ => false
  | fuel + 1, p, s =>
    match p, s with
    | [], [] => true
    | '*' :: p2, s =>
      globFuel fuel p2 s ||
        (match s with
         | [] => false
         | _ :: s2 => globFuel fuel ('*' :: p2) s2)
    | '?' :: p2, _ :: s2 => globFuel fuel p2 s2
    | c :: p2, d :: s2 => c == d && globFuel fuel p2 s2
    | _, _ => false

def globMatch (p k : String) : Bool :=
  globFuel (p.data.length + k.data.length + 1) p.data k.data

/-- The module-level mutable state of src/redis.js: the cached client
instances (instances stand as ids allocated by `nextId`), the
`_clients` list, the log of instances quit so far, and the (mutable)
`defaults`. -/
structure RedisState where
  _client : Option Nat
  publisher : Option Nat
  subscriber : Option Nat
  _clients : List Nat
  nextId : Nat
  quitted : List Nat
  defaults : Options
  deriving Repr, DecidableEq

def freshState : RedisState :=
  { _client := none, publisher := none, subscriber := none,
    _clients := [], nextId := 0, quitted := [], defaults := defaultOptions }

/-- `createClient` (src/redis.js lines 63-114): a new client instance
is allocated and remembered in `_clients` for later shutdown. -/
def createClient (s : RedisState) : Nat × RedisState :=
  (s.nextId,
   { s with _clients := s._clients ++ [s.nextId], nextId := s.nextId + 1 })

/-- `pubsub` (src/redis.js lines 149-165): create publisher and
subscriber only when missing, return the cached pair. -/
def pubsubClients (s : RedisState) : (Nat × Nat) × RedisState :=
  let (p, s1) :=
    match s.publisher with
    | some p => (p, s)
    | none =>
      let (c, s') := createClient s
      (c, { s' with publisher := some c })
  let (q, s2) :=
    match s1.subscriber with
    | some q => (q, s1)
    | none =>
      let (c, s') := createClient s1
      (c, { s' with subscriber := some c })
  ((p, q), s2)

/-- `init`/`client` (src/redis.js lines 125-139): create the normal
client only when missing, ensure the pubsub pair, return the cached
client. -/
def initClients (s : RedisState) : Option Nat × RedisState :=
  let s1 :=
    match s._client with
    | some _ => s
    | none =>
      let (c, s') := createClient s
      { s' with _client := some c }
  let s2 := (pubsubClients s1).2
  (s2._client, s2)

/-- The state-touching operations that can run between two resets. -/
inductive ROp where
  | create
  | initOp
  | pubsubOp
  | multiOp
  | setDefaults (o : Options)
  deriving Repr, DecidableEq

def stepOp (s : RedisState) : ROp → RedisState
  | ROp.create => (createClient s).2
  | ROp.initOp => (initClients s).2
  | ROp.pubsubOp => (pubsubClients s).2
  | ROp.multiOp => (initClients s).2    -- multi() ensures clients via init()
  | ROp.setDefaults o => { s with defaults := o }

def runOps (s : RedisState) (ops : List ROp) : RedisState := ops.foldl stepOp s

/-- `reset`/`quit` (src/redis.js lines 315-343): quit every client in
`_clients`, null the cached instances, restore the original defaults,
and empty `_clients`. -/
def resetClients (s : RedisState) : RedisState :=
  { _client := none, publisher := none, subscriber := none,
    _clients := [], nextId := s.nextId,
    quitted := s.quitted ++ s._clients,
    defaults := defaultOptions }

/-! Helper lemmas about key construction and argument compaction. -/

theorem keyFn_nonempty_args (opts : Options) (uuid : String) (args : List KeyArg)
    (h : flattenArgs args ≠ []) :
    keyFn opts uuid args
      = opts.pfx ++ opts.separator ++ joinWith opts.separator (flattenArgs args) := by
  unfold keyFn
  cases hf : flattenArgs args with
  | nil => exact absurd hf h
  | cons a t =>
    simp only [List.length_cons, List.singleton_append]
    rw [if_neg (by simp)]
    exact joinWith_cons _ _ _ (by simp)

theorem keyFn_ex_rest (opts : Options) (uuid : String) (args : List KeyArg) :
    ∃ rest, keyFn opts uuid args = opts.pfx ++ opts.separator ++ rest := by
  cases hf : flattenArgs args with
  | nil =>
    refine ⟨uuid, ?_⟩
    unfold keyFn
    simp [hf, joinWith]
  | cons a t =>
    exact ⟨joinWith opts.separator (a :: t),
      by rw [keyFn_nonempty_args opts uuid args (by rw [hf]; simp), hf]⟩

theorem keyFn_ne_empty (opts : Options) (uuid : String) (args : List KeyArg)
    (h : opts.pfx ≠ "") : keyFn opts uuid args ≠ "" := by
  obtain ⟨rest, hr⟩ := keyFn_ex_rest opts uuid args
  rw [hr]
  intro h0
  apply h
  have hd := congrArg String.data h0
  simp only [String.data_append] at hd
  rcases List.append_eq_nil.mp (List.append_eq_nil.mp hd).1 with ⟨h1, -⟩
  exact String.ext h1

theorem compactArgs_some_cons (a : StoreArg) (l : List (Option StoreArg)) :
    compactArgs (some a :: l)
      = if StoreArg.truthy a = true then a :: compactArgs l else compactArgs l := by
  simp only [compactArgs, List.filterMap_cons, List.filter]
  split <;> simp_all

/-! Claims C9, C3, C1, C5, C6. -/

/-- C9: for each of set, get, hmset and hgetall, a function in key
position (or, for set and hmset, in value position) short-circuits the
operation: no store command is issued, and the operation returns the
result of invoking that function with no arguments. -/
theorem function_arguments_short_circuit (opts : Options) (uuid : String) (f : Nat)
    (value expiry time strategy done : JsIn) (key : KeyIn)
    (hk : ∀ g, key ≠ KeyIn.fnK g) :
    setModel opts uuid (KeyIn.fnK f) value expiry time strategy done = CmdOutcome.invoked f ∧
    getModel opts uuid (KeyIn.fnK f) done = CmdOutcome.invoked f ∧
    hmsetModel opts uuid (KeyIn.fnK f) value done = CmdOutcome.invoked f ∧
    hgetallModel opts uuid (KeyIn.fnK f) done = CmdOutcome.invoked f ∧
    setModel opts uuid key (JsIn.fn f) expiry time strategy done = CmdOutcome.invoked f ∧
    hmsetModel opts uuid key (JsIn.fn f) done = CmdOutcome.invoked f := by
  refine ⟨rfl, rfl, rfl, rfl, ?_, ?_⟩ <;>
    cases key <;> first | rfl | exact absurd rfl (hk _)

/-- Witness for `function_arguments_short_circuit` at concrete arguments. -/
theorem function_arguments_short_circuit_witness :
    setModel defaultOptions "u" (KeyIn.strK "k") (JsIn.fn 7)
      JsIn.undef JsIn.undef JsIn.undef JsIn.undef = CmdOutcome.invoked 7 :=
  (function_arguments_short_circuit defaultOptions "u" 7
    (JsIn.fn 7) JsIn.undef JsIn.undef JsIn.undef JsIn.undef (KeyIn.strK "k")
    (fun g h => by cases h)).2.2.2.2.1

/-- C3: key(...args) flattens its arguments into segments, prepends the
configured namespace and joins with the configured separator; each of
set, get, hmset and hgetall applies key() to the caller's key before
issuing its command; under the default options the key "ab" is stored
under "r:ab" and ["users", "ab"] under "r:users:ab". -/
theorem key_namespacing (opts : Options) (uuid : String) (args : List KeyArg)
    (k : String) (v : JVal) (e t st d : JsIn)
    (hargs : flattenArgs args ≠ []) :
    keyFn opts uuid args
      = opts.pfx ++ opts.separator ++ joinWith opts.separator (flattenArgs args) ∧
    keyFn defaultOptions uuid [KeyArg.one "ab"] = "r:ab" ∧
    keyFn defaultOptions uuid [KeyArg.many ["users", "ab"]] = "r:users:ab" ∧
    (∃ rest, setModel defaultOptions uuid (KeyIn.strK k) (JsIn.val v) e t st d
        = CmdOutcome.cmd (StoreArg.s (keyFn defaultOptions uuid [KeyArg.one k]) :: rest)) ∧
    getModel defaultOptions uuid (KeyIn.strK k) d
      = CmdOutcome.cmd [StoreArg.s (keyFn defaultOptions uuid [KeyArg.one k]), StoreArg.cb] ∧
    (∃ rest, hmsetModel defaultOptions uuid (KeyIn.strK k) (JsIn.val v) d
        = CmdOutcome.cmd (StoreArg.s (keyFn defaultOptions uuid [KeyArg.one k]) :: rest)) ∧
    hgetallModel defaultOptions uuid (KeyIn.strK k) d
      = CmdOutcome.cmd [StoreArg.s (keyFn defaultOptions uuid [KeyArg.one k]), StoreArg.cb] := by
  have hk : StoreArg.truthy (StoreArg.s (keyFn defaultOptions uuid [KeyArg.one k])) = true := by
    simp only [StoreArg.truthy, decide_eq_true_eq]
    exact keyFn_ne_empty _ _ _ (by decide)
  refine ⟨keyFn_nonempty_args _ _ _ hargs,
    by rw [keyFn_nonempty_args _ _ _ (by decide)]; decide,
    by rw [keyFn_nonempty_args _ _ _ (by decide)]; decide, ?_, ?_, ?_, ?_⟩
  · simp only [setModel, keyArgsOf]
    rw [compactArgs_some_cons, if_pos hk]
    exact ⟨_, rfl⟩
  · simp only [getModel, keyArgsOf]
    rw [compactArgs_some_cons, if_pos hk]
    rfl
  · simp only [hmsetModel, keyArgsOf]
    rw [compactArgs_some_cons, if_pos hk]
    exact ⟨_, rfl⟩
  · simp only [hgetallModel, keyArgsOf]
    rw [compactArgs_some_cons, if_pos hk]
    rfl

/-- Witness for `key_namespacing` at concrete arguments. -/
theorem key_namespacing_witness :
    keyFn defaultOptions "u" [KeyArg.one "ab"] = "r:ab" :=
  (key_namespacing defaultOptions "u" [KeyArg.one "ab"] "ab" JVal.null
    JsIn.undef JsIn.undef JsIn.undef JsIn.undef (by decide)).2.1

/-- C1 is refuted as stated: count invoked with only a callback and no
pattern delivers an error object the wrapper itself constructed, not
one originating from the underlying store client. -/
theorem count_constructs_own_error :
    countModel globMatch [] none [CountArg.cbA]
      = CountOutcome.delivered (some (JsError.fromWrapper "Missing Count Patterns" 400)) none ∧
    JsError.isFromStore (JsError.fromWrapper "Missing Count Patterns" 400) = false := by
  exact ⟨by decide, rfl⟩

/-- C1 (amended): every error a wrapper operation delivers to a user
callback is the underlying client's error object passed through
unchanged, with one exception: count invoked without any effective
pattern constructs and delivers its own "Missing Count Patterns" error
with status 400. -/
theorem errors_passed_through (v replyH si : JVal) (err : Option JsError)
    (reply : Option String) (matchFn : String → String → Bool)
    (store : List String) (opts : Options) (e : Nat)
    (p : ClearIn) (args : List CountArg) :
    (setCb v err).1 = err ∧
    (getCb err reply).1 = err ∧
    (hmsetCb v err).1 = err ∧
    (hgetallCb err replyH).1 = err ∧
    (infoCb err si).1 = err ∧
    (clearModel matchFn opts store p (some e) none).2
      = ClearOutcome.delivered (some (JsError.fromStore e)) ∧
    (clearModel matchFn opts store p none (some e)).2
      = ClearOutcome.delivered (some (JsError.fromStore e)) ∧
    (clearModel matchFn opts store p none none).2 = ClearOutcome.delivered none ∧
    (∀ execErr err2 res, countModel matchFn store execErr args
        = CountOutcome.delivered err2 res →
      err2 = none ∨ err2 = execErr.map JsError.fromStore ∨
        err2 = some (JsError.fromWrapper "Missing Count Patterns" 400)) := by
  refine ⟨rfl, rfl, rfl, rfl, rfl, rfl, rfl, rfl, ?_⟩
  intro execErr err2 res h
  simp only [countModel] at h
  split at h
  · split at h
    · cases execErr with
      | none =>
        simp only [CountOutcome.delivered.injEq] at h
        exact Or.inl h.1.symm
      | some e2 =>
        simp only [CountOutcome.delivered.injEq] at h
        exact Or.inr (Or.inl (by simp [← h.1]))
    · simp only [CountOutcome.delivered.injEq] at h
      exact Or.inr (Or.inr h.1.symm)
  · exact absurd h (by simp)

/-- Witness for `errors_passed_through` at concrete arguments. -/
theorem errors_passed_through_witness :
    (countModel globMatch [] none [CountArg.cbA]
        = CountOutcome.delivered (some (JsError.fromWrapper "Missing Count Patterns" 400)) none →
      some (JsError.fromWrapper "Missing Count Patterns" 400) = none ∨
      some (JsError.fromWrapper "Missing Count Patterns" 400)
        = Option.map JsError.fromStore (none : Option Nat) ∨
      some (JsError.fromWrapper "Missing Count Patterns" 400)
        = some (JsError.fromWrapper "Missing Count Patterns" 400)) ∧
    (setCb JVal.null (some (JsError.fromStore 3))).1 = some (JsError.fromStore 3) :=
  ⟨(errors_passed_through JVal.null JVal.null JVal.null (some (JsError.fromStore 3))
      none globMatch [] defaultOptions 0 ClearIn.omitted [CountArg.cbA]).2.2.2.2.2.2.2.2
      none (some (JsError.fromWrapper "Missing Count Patterns" 400)) none,
   (errors_passed_through JVal.null JVal.null JVal.null (some (JsError.fromStore 3))
      none globMatch [] defaultOptions 0 ClearIn.omitted [CountArg.cbA]).1⟩

/-! Count with distinct patterns: helper lemmas for C5. -/

def dedupFirstAux (seen : List String) : List String → List String
  | [] => []
  | a :: r => if a ∈ seen then dedupFirstAux seen r else a :: dedupFirstAux (a :: seen) r

/-- `_.uniq` on a string list: first occurrences, in order. -/
def dedupFirst (l : List String) : List String := dedupFirstAux [] l

theorem pat_mem_map (a : String) (seen : List String) :
    (CountArg.pat a ∈ seen.map CountArg.pat) ↔ a ∈ seen := by
  simp [List.mem_map]

theorem uniqFirstAux_pats (l : List String) (seen : List String) :
    uniqFirstAux (seen.map CountArg.pat) (l.map CountArg.pat ++ [CountArg.cbA])
      = (dedupFirstAux seen l).map CountArg.pat ++ [CountArg.cbA] := by
  induction l generalizing seen with
  | nil =>
    simp only [List.map_nil, List.nil_append, uniqFirstAux, dedupFirstAux]
    rw [if_neg (by simp)]
  | cons a r ih =>
    simp only [List.map_cons, List.cons_append, uniqFirstAux, dedupFirstAux]
    by_cases h : a ∈ seen
    · rw [if_pos ((pat_mem_map a seen).mpr h), if_pos h]
      exact ih seen
    · rw [if_neg (fun hc => h ((pat_mem_map a seen).mp hc)), if_neg h]
      have := ih (a :: seen)
      simp only [List.map_cons] at this
      simp only [List.append_eq]
      rw [this]
      simp

theorem filter_pats (ps : List String) :
    (ps.map CountArg.pat ++ [CountArg.cbA]).filter CountArg.truthy
      = (ps.filter (fun s => s ≠ "")).map CountArg.pat ++ [CountArg.cbA] := by
  induction ps with
  | nil => rfl
  | cons a r ih =>
    simp only [List.map_cons, List.cons_append, List.filter_cons]
    by_cases h : a = ""
    · subst h
      simp only [CountArg.truthy]
      rw [if_neg (by simp), if_neg (by simp)]
      exact ih
    · simp only [CountArg.truthy]
      rw [if_pos (by simp [h]), if_pos (by simp [h]), List.map_cons, List.cons_append]
      exact congrArg _ ih

theorem filterMap_pats (l : List String) :
    (l.map CountArg.pat).filterMap
        (fun a => match a with
                  | CountArg.pat s => some s
                  | CountArg.cbA => none) = l := by
  induction l with
  | nil => rfl
  | cons a r ih => simp [List.filterMap_cons, ih]

/-- C5 is refuted as stated: count given the same pattern twice invokes
done with a single number (the patterns are deduplicated), not with one
count per given pattern. -/
theorem count_duplicate_patterns_collapse :
    countModel globMatch ["ab"] none [CountArg.pat "a*", CountArg.pat "a*", CountArg.cbA]
      = CountOutcome.delivered none (some (CountRes.one 1)) ∧
    CountOutcome.delivered none (some (CountRes.one 1))
      ≠ CountOutcome.delivered none (some (CountRes.many [1, 1])) := by
  exact ⟨by decide, by decide⟩

/-- C5 (amended): count invokes done with one count per distinct
non-empty pattern, in order of first occurrence: a single number when
exactly one distinct pattern remains, an array of numbers when several
remain, each count being the number of store keys matching that
pattern; and an error when no pattern remains. -/
theorem count_per_distinct_pattern (matchFn : String → String → Bool)
    (store : List String) (ps : List String) (p : String) :
    (dedupFirst (ps.filter (fun s => s ≠ "")) = [] →
      countModel matchFn store none (ps.map CountArg.pat ++ [CountArg.cbA])
        = CountOutcome.delivered (some (JsError.fromWrapper "Missing Count Patterns" 400)) none) ∧
    (dedupFirst (ps.filter (fun s => s ≠ "")) = [p] →
      countModel matchFn store none (ps.map CountArg.pat ++ [CountArg.cbA])
        = CountOutcome.delivered none
            (some (CountRes.one (store.filter (fun k => matchFn p k)).length))) ∧
    (1 < (dedupFirst (ps.filter (fun s => s ≠ ""))).length →
      countModel matchFn store none (ps.map CountArg.pat ++ [CountArg.cbA])
        = CountOutcome.delivered none
            (some (CountRes.many ((dedupFirst (ps.filter (fun s => s ≠ ""))).map
              (fun q => (store.filter (fun k => matchFn q k)).length))))) := by
  have hbase : uniqFirst ((ps.map CountArg.pat ++ [CountArg.cbA]).filter CountArg.truthy)
      = (dedupFirst (ps.filter (fun s => s ≠ ""))).map CountArg.pat ++ [CountArg.cbA] := by
    rw [filter_pats]
    have := uniqFirstAux_pats (ps.filter (fun s => s ≠ "")) []
    simpa [uniqFirst, dedupFirst] using this
  refine ⟨?_, ?_, ?_⟩
  · intro hd
    simp only [countModel, hbase, hd, List.map_nil, List.nil_append]
    rfl
  · intro hd
    simp only [countModel, hbase, hd, List.map_cons, List.map_nil]
    simp [filterMap_pats [p], List.getLast?_concat, List.dropLast_concat]
  · intro hd
    rcases hq : dedupFirst (ps.filter (fun s => s ≠ "")) with - | ⟨q, qs⟩
    · rw [hq] at hd; simp at hd
    · rw [hq] at hd
      simp only [countModel, hbase, hq]
      rw [List.getLast?_concat, List.dropLast_concat]
      simp only [filterMap_pats (q :: qs)]
      rw [if_pos (by simp)]
      have hlen : ((q :: qs).map
          (fun q => (store.filter (fun k => matchFn q k)).length)).length
            = (q :: qs).length := List.length_map _ _
      rw [if_pos (by rw [hlen]; simpa using hd)]

/-- Witness for `count_per_distinct_pattern` at concrete arguments. -/
theorem count_per_distinct_pattern_witness :
    countModel globMatch ["ab", "ac", "b"] none
        ([ "a*", "b*" ].map CountArg.pat ++ [CountArg.cbA])
      = CountOutcome.delivered none (some (CountRes.many [2, 1])) := by
  have h := (count_per_distinct_pattern globMatch ["ab", "ac", "b"] ["a*", "b*"] "a*").2.2
    (by decide)
  simpa using h

/-! Deleting listed keys deletes exactly them: helper for C6. -/

theorem foldl_delete (l st : List String) :
    l.foldl (fun st k => st.filter (fun x => x ≠ k)) st
      = st.filter (fun x => x ∉ l) := by
  induction l generalizing st with
  | nil => simp
  | cons k r ih =>
    simp only [List.foldl_cons, ih, List.filter_filter]
    apply List.filter_congr
    intro x _
    simp only [List.mem_cons, not_or, Bool.and_comm]
    simp

/-- C6: clear is confined to the namespace: it deletes exactly the
store keys matching prefix+separator+pattern+"*" (prefix+"*" when no
pattern is given), and every other key is left unchanged. -/
theorem clear_confined_to_namespace (matchFn : String → String → Bool)
    (opts : Options) (store : List String) (p : String) (ci : ClearIn)
    (hpfx : opts.pfx ≠ "") (hp : p ≠ "") :
    clearPattern opts (some p) = opts.pfx ++ opts.separator ++ p ++ "*" ∧
    clearPattern opts none = opts.pfx ++ "*" ∧
    (clearModel matchFn opts store ci none none).1
      = store.filter (fun k => !(matchFn (clearPattern opts (clearNormalize ci)) k)) ∧
    (clearModel matchFn opts store ci none none).2 = ClearOutcome.delivered none := by
  refine ⟨?_, ?_, ?_, rfl⟩
  · simp only [clearPattern, compactPat]
    rw [List.filter_cons_of_pos (by simpa using hpfx), List.filter_cons_of_pos (by simpa using hp)]
    simp [joinWith]
  · simp only [clearPattern, compactPat]
    rw [List.filter_cons_of_pos (by simpa using hpfx)]
    simp [joinWith]
  · show ((store.filter _).foldl _ store, _).1 = _
    simp only
    rw [foldl_delete]
    apply List.filter_congr
    intro x hx
    simp [List.mem_filter, hx]

/-- Witness for `clear_confined_to_namespace` at concrete arguments. -/
theorem clear_confined_to_namespace_witness :
    clearPattern defaultOptions (some "users") = "r" ++ ":" ++ "users" ++ "*" :=
  (clear_confined_to_namespace globMatch defaultOptions ["r:users:1", "q:z"] "users"
    (ClearIn.str "users") (by decide) (by decide)).1

/-! Connection caching: helper lemmas for C4. -/

theorem pubsubClients_cached {s : RedisState} {p q : Nat}
    (hp : s.publisher = some p) (hq : s.subscriber = some q) :
    pubsubClients s = ((p, q), s) := by
  unfold pubsubClients
  rw [hp]
  simp only
  rw [hq]

theorem initClients_cached {s : RedisState} {c p q : Nat}
    (hc : s._client = some c) (hp : s.publisher = some p) (hq : s.subscriber = some q) :
    initClients s = (some c, s) := by
  unfold initClients
  rw [hc]
  simp only
  rw [pubsubClients_cached hp hq]
  simp [hc]

theorem initClients_fst (s : RedisState) :
    (initClients s).1 = ((initClients s).2)._client := rfl

theorem initClients_client_ne_none (s : RedisState) :
    ((initClients s).2)._client ≠ none := by
  unfold initClients pubsubClients createClient
  cases hc : s._client <;> cases hp : s.publisher <;> cases hq : s.subscriber <;>
    simp [hc, hp, hq]

theorem initClients_pub_ne_none (s : RedisState) :
    ((initClients s).2).publisher ≠ none := by
  unfold initClients pubsubClients createClient
  cases hc : s._client <;> cases hp : s.publisher <;> cases hq : s.subscriber <;>
    simp [hc, hp, hq]

theorem initClients_sub_ne_none (s : RedisState) :
    ((initClients s).2).subscriber ≠ none := by
  unfold initClients pubsubClients createClient
  cases hc : s._client <;> cases hp : s.publisher <;> cases hq : s.subscriber <;>
    simp [hc, hp, hq]

theorem stepOp_cached_id {s : RedisState} {c p q : Nat}
    (hc : s._client = some c) (hp : s.publisher = some p) (hq : s.subscriber = some q)
    (op : ROp) (hop : op = ROp.initOp ∨ op = ROp.pubsubOp ∨ op = ROp.multiOp) :
    stepOp s op = s := by
  rcases hop with rfl | rfl | rfl
  · simp [stepOp, initClients_cached hc hp hq]
  · simp [stepOp, pubsubClients_cached hp hq]
  · simp [stepOp, initClients_cached hc hp hq]

theorem runOps_cached_id {s : RedisState} {c p q : Nat}
    (hc : s._client = some c) (hp : s.publisher = some p) (hq : s.subscriber = some q)
    (ops : List ROp)
    (hops : ∀ op ∈ ops, op = ROp.initOp ∨ op = ROp.pubsubOp ∨ op = ROp.multiOp) :
    runOps s ops = s := by
  induction ops with
  | nil => rfl
  | cons op rest ih =>
    show runOps (stepOp s op) rest = s
    rw [stepOp_cached_id hc hp hq op (hops op (by simp))]
    exact ih (fun o ho => hops o (List.mem_cons_of_mem op ho))

/-- C4: between two resets, every call of client()/init() after the
first returns the same cached client instance, every call of pubsub()
returns the same cached publisher and subscriber pair, and any sequence
of such repeated calls leaves the state unchanged, so no additional
clients are created. -/
theorem connection_instance_caching (s₀ : RedisState) (ops : List ROp)
    (hops : ∀ op ∈ ops, op = ROp.initOp ∨ op = ROp.pubsubOp ∨ op = ROp.multiOp) :
    ∃ c p q,
      (initClients s₀).1 = some c ∧
      initClients ((initClients s₀).2) = (some c, (initClients s₀).2) ∧
      pubsubClients ((initClients s₀).2) = ((p, q), (initClients s₀).2) ∧
      runOps ((initClients s₀).2) ops = (initClients s₀).2 := by
  obtain ⟨c, hc⟩ := Option.ne_none_iff_exists'.mp (initClients_client_ne_none s₀)
  obtain ⟨p, hp⟩ := Option.ne_none_iff_exists'.mp (initClients_pub_ne_none s₀)
  obtain ⟨q, hq⟩ := Option.ne_none_iff_exists'.mp (initClients_sub_ne_none s₀)
  refine ⟨c, p, q, ?_, ?_, ?_, ?_⟩
  · rw [initClients_fst, hc]
  · exact initClients_cached hc hp hq
  · exact pubsubClients_cached hp hq
  · exact runOps_cached_id hc hp hq ops hops

/-- Witness for `connection_instance_caching` at concrete arguments. -/
theorem connection_instance_caching_witness :
    ∃ c p q,
      (initClients freshState).1 = some c ∧
      initClients ((initClients freshState).2) = (some c, (initClients freshState).2) ∧
      pubsubClients ((initClients freshState).2) = ((p, q), (initClients freshState).2) ∧
      runOps ((initClients freshState).2) [ROp.initOp, ROp.pubsubOp]
        = (initClients freshState).2 :=
  connection_instance_caching freshState [ROp.initOp, ROp.pubsubOp] (by decide)

/-! Reset: helper lemmas for C7. -/

/-- The invariant linking every client created since the last reset (id
at least `base`) to the `_clients` list, and the cached instances to
`_clients`. -/
def SinceReset (base : Nat) (s : RedisState) : Prop :=
  (∀ id, base ≤ id → id < s.nextId → id ∈ s._clients) ∧
  (∀ c, s._client = some c → c ∈ s._clients) ∧
  (∀ p, s.publisher = some p → p ∈ s._clients) ∧
  (∀ q, s.subscriber = some q → q ∈ s._clients) ∧
  base ≤ s.nextId

theorem createClient_since {base : Nat} {s : RedisState} (h : SinceReset base s) :
    SinceReset base (createClient s).2 ∧ (createClient s).1 ∈ ((createClient s).2)._clients := by
  obtain ⟨h1, h2, h3, h4, h5⟩ := h
  refine ⟨⟨?_, ?_, ?_, ?_, ?_⟩, ?_⟩
  · intro id hb hlt
    simp only [createClient, List.mem_append] at hlt ⊢
    rcases Nat.lt_succ_iff_lt_or_eq.mp hlt with hlt | rfl
    · exact Or.inl (h1 id hb hlt)
    · simp
  · intro c hcl
    simp only [createClient] at hcl ⊢
    simp [List.mem_append, h2 c hcl]
  · intro p hcl
    simp only [createClient] at hcl ⊢
    simp [List.mem_append, h3 p hcl]
  · intro q hcl
    simp only [createClient] at hcl ⊢
    simp [List.mem_append, h4 q hcl]
  · simp only [createClient]
    exact Nat.le_succ_of_le h5
  · simp [createClient]

theorem pubsubClients_since {base : Nat} {s : RedisState} (h : SinceReset base s) :
    SinceReset base ((pubsubClients s).2) := by
  obtain ⟨h1, h2, h3, h4, h5⟩ := h
  unfold pubsubClients createClient
  cases hp : s.publisher with
  | some p =>
    simp only
    cases hq : s.subscriber with
    | some q =>
      simp only
      exact ⟨h1, h2, h3, h4, h5⟩
    | none =>
      simp only
      refine ⟨?_, ?_, ?_, ?_, Nat.le_succ_of_le h5⟩
      · intro id hb hlt
        simp only at hlt
        rcases Nat.lt_succ_iff_lt_or_eq.mp hlt with h' | rfl
        · exact List.mem_append_left _ (h1 id hb h')
        · exact List.mem_append_right _ (by simp)
      · intro c hc
        exact List.mem_append_left _ (h2 c hc)
      · intro p2 hp2
        exact List.mem_append_left _ (h3 p2 hp2)
      · intro q2 hq2
        simp only [Option.some.injEq] at hq2
        subst hq2
        exact List.mem_append_right _ (by simp)
  | none =>
    simp only
    cases hq : s.subscriber with
    | some q =>
      simp only [hq]
      refine ⟨?_, ?_, ?_, ?_, Nat.le_succ_of_le h5⟩
      · intro id hb hlt
        simp only at hlt
        rcases Nat.lt_succ_iff_lt_or_eq.mp hlt with h' | rfl
        · exact List.mem_append_left _ (h1 id hb h')
        · exact List.mem_append_right _ (by simp)
      · intro c hc
        exact List.mem_append_left _ (h2 c hc)
      · intro p2 hp2
        simp only [Option.some.injEq] at hp2
        subst hp2
        exact List.mem_append_right _ (by simp)
      · intro q2 hq2
        simp only [Option.some.injEq] at hq2
        subst hq2
        exact List.mem_append_left _ (h4 q hq)
    | none =>
      simp only [hq]
      refine ⟨?_, ?_, ?_, ?_, ?_⟩
      · intro id hb hlt
        simp only at hlt
        have : id < s.nextId ∨ id = s.nextId ∨ id = s.nextId + 1 := by omega
        rcases this with h' | rfl | rfl
        · exact List.mem_append_left _ (List.mem_append_left _ (h1 id hb h'))
        · exact List.mem_append_left _ (List.mem_append_right _ (by simp))
        · exact List.mem_append_right _ (by simp)
      · intro c hc
        exact List.mem_append_left _ (List.mem_append_left _ (h2 c hc))
      · intro p2 hp2
        simp only [Option.some.injEq] at hp2
        subst hp2
        exact List.mem_append_left _ (List.mem_append_right _ (by simp))
      · intro q2 hq2
        simp only [Option.some.injEq] at hq2
        subst hq2
        exact List.mem_append_right _ (by simp)
      · simp only
        omega

theorem initClients_since {base : Nat} {s : RedisState} (h : SinceReset base s) :
    SinceReset base ((initClients s).2) := by
  unfold initClients
  cases hc : s._client with
  | some c =>
    simp only
    exact pubsubClients_since h
  | none =>
    simp only
    apply pubsubClients_since
    obtain ⟨⟨h1, h2, h3, h4, h5⟩, hmem⟩ := createClient_since h
    exact ⟨h1, fun c hc2 => by cases hc2; exact hmem, h3, h4, h5⟩

theorem stepOp_since {base : Nat} {s : RedisState} (h : SinceReset base s) (op : ROp) :
    SinceReset base (stepOp s op) := by
  cases op with
  | create => exact (createClient_since h).1
  | initOp => exact initClients_since h
  | pubsubOp => exact pubsubClients_since h
  | multiOp => exact initClients_since h
  | setDefaults o =>
    obtain ⟨h1, h2, h3, h4, h5⟩ := h
    exact ⟨h1, h2, h3, h4, h5⟩

theorem runOps_since {base : Nat} {s : RedisState} (h : SinceReset base s) (ops : List ROp) :
    SinceReset base (runOps s ops) := by
  induction ops generalizing s with
  | nil => exact h
  | cons op rest ih => exact ih (stepOp_since h op)

/-- C7: reset()/quit() calls quit on every client created since the
last reset — including the cached client, publisher and subscriber —
and afterwards the cached instances are null, `_clients` is empty, and
`defaults` is restored to the module's original default options. -/
theorem reset_quits_everything (s₀ : RedisState) (ops : List ROp)
    (h0 : s₀._clients = []) (h1 : s₀._client = none)
    (h2 : s₀.publisher = none) (h3 : s₀.subscriber = none) :
    (∀ id, s₀.nextId ≤ id → id < (runOps s₀ ops).nextId →
      id ∈ (resetClients (runOps s₀ ops)).quitted) ∧
    (∀ c, (runOps s₀ ops)._client = some c → c ∈ (resetClients (runOps s₀ ops)).quitted) ∧
    (∀ p, (runOps s₀ ops).publisher = some p → p ∈ (resetClients (runOps s₀ ops)).quitted) ∧
    (∀ q, (runOps s₀ ops).subscriber = some q → q ∈ (resetClients (runOps s₀ ops)).quitted) ∧
    (resetClients (runOps s₀ ops))._client = none ∧
    (resetClients (runOps s₀ ops)).publisher = none ∧
    (resetClients (runOps s₀ ops)).subscriber = none ∧
    (resetClients (runOps s₀ ops))._clients = [] ∧
    (resetClients (runOps s₀ ops)).defaults = defaultOptions := by
  have hbase : SinceReset s₀.nextId s₀ := by
    refine ⟨fun id hb hlt => absurd hb (by omega), ?_, ?_, ?_, le_refl _⟩
    · intro c hc; rw [h1] at hc; cases hc
    · intro p hp; rw [h2] at hp; cases hp
    · intro q hq; rw [h3] at hq; cases hq
  obtain ⟨g1, g2, g3, g4, g5⟩ := runOps_since hbase ops
  have hquit : ∀ x, x ∈ (runOps s₀ ops)._clients →
      x ∈ (resetClients (runOps s₀ ops)).quitted := by
    intro x hx
    simp [resetClients, List.mem_append, hx]
  exact ⟨fun id hb hlt => hquit id (g1 id hb hlt),
    fun c hc => hquit c (g2 c hc),
    fun p hp => hquit p (g3 p hp),
    fun q hq => hquit q (g4 q hq),
    rfl, rfl, rfl, rfl, rfl⟩

/-- Witness for `reset_quits_everything` at concrete arguments: after
`init()` on a fresh factory, reset quits the first allocated client and
clears every cache. -/
theorem reset_quits_everything_witness :
    0 ∈ (resetClients (runOps freshState [ROp.initOp])).quitted ∧
    (resetClients (runOps freshState [ROp.initOp]))._client = none ∧
    (resetClients (runOps freshState [ROp.initOp]))._clients = [] :=
  have h := reset_quits_everything freshState [ROp.initOp] rfl rfl rfl rfl
  ⟨h.1 0 (by decide) (by decide), h.2.2.2.2.1, h.2.2.2.2.2.2.2.1⟩

/-! Round trip of the JSON model: helper lemmas for C2. -/

/-- The continuation after an encoded number must not begin with a
digit (inside arrays and objects it begins with a comma or a closing
bracket, at top level it is empty). -/
def noLeadDigit : List Char → Prop
  | [] => True
  | c :: _ => isDigitCh c = false

theorem char_eq_of_toNat {a b : Char} (h : a.toNat = b.toNat) : a = b :=
  Char.eq_of_val_eq (UInt32.ext h)

theorem skipWs_cons {c : Char} (r : List Char) (h : isWsCh c = false) :
    skipWs (c :: r) = c :: r := by
  simp [skipWs, h]

theorem digitChar_digit : ∀ n, n < 10 → isDigitCh (digitChar n) = true := by decide

theorem digitChar_toNat : ∀ n, n < 10 → (digitChar n).toNat = 48 + n := by decide

theorem digitChar_ne_zero : ∀ n, n < 10 → 1 ≤ n → digitChar n ≠ '0' := by decide

theorem hexVal_hexDigit : ∀ n, n < 16 → hexVal (hexDigit n) = some n := by decide

theorem digit_enum {c : Char} (h : isDigitCh c = true) :
    c = '0' ∨ c = '1' ∨ c = '2' ∨ c = '3' ∨ c = '4' ∨
    c = '5' ∨ c = '6' ∨ c = '7' ∨ c = '8' ∨ c = '9' := by
  simp only [isDigitCh, Bool.and_eq_true, decide_eq_true_eq] at h
  have hd : c.toNat = 48 ∨ c.toNat = 49 ∨ c.toNat = 50 ∨ c.toNat = 51 ∨ c.toNat = 52 ∨
      c.toNat = 53 ∨ c.toNat = 54 ∨ c.toNat = 55 ∨ c.toNat = 56 ∨ c.toNat = 57 := by omega
  rcases hd with h' | h' | h' | h' | h' | h' | h' | h' | h' | h' <;>
    [exact Or.inl (char_eq_of_toNat (by rw [h']; decide));
     exact Or.inr (Or.inl (char_eq_of_toNat (by rw [h']; decide)));
     exact Or.inr (Or.inr (Or.inl (char_eq_of_toNat (by rw [h']; decide))));
     exact Or.inr (Or.inr (Or.inr (Or.inl (char_eq_of_toNat (by rw [h']; decide)))));
     exact Or.inr (Or.inr (Or.inr (Or.inr (Or.inl (char_eq_of_toNat (by rw [h']; decide))))));
     exact Or.inr (Or.inr (Or.inr (Or.inr (Or.inr (Or.inl (char_eq_of_toNat (by rw [h']; decide)))))));
     exact Or.inr (Or.inr (Or.inr (Or.inr (Or.inr (Or.inr (Or.inl (char_eq_of_toNat (by rw [h']; decide))))))));
     exact Or.inr (Or.inr (Or.inr (Or.inr (Or.inr (Or.inr (Or.inr (Or.inl (char_eq_of_toNat (by rw [h']; decide)))))))));
     exact Or.inr (Or.inr (Or.inr (Or.inr (Or.inr (Or.inr (Or.inr (Or.inr (Or.inl (char_eq_of_toNat (by rw [h']; decide))))))))));
     exact Or.inr (Or.inr (Or.inr (Or.inr (Or.inr (Or.inr (Or.inr (Or.inr (Or.inr (char_eq_of_toNat (by rw [h']; decide))))))))))]

theorem digit_facts {c : Char} (h : isDigitCh c = true) :
    c ≠ 'n' ∧ c ≠ 't' ∧ c ≠ 'f' ∧ c ≠ '"' ∧ c ≠ '[' ∧ c ≠ '\x7b' ∧ c ≠ '-' ∧
      isWsCh c = false ∧ c ≠ ']' ∧ c ≠ '\x7d' ∧ c ≠ ',' ∧ c ≠ ':' := by
  rcases digit_enum h with rfl | rfl | rfl | rfl | rfl | rfl | rfl | rfl | rfl | rfl <;> decide

theorem natToDigitsAux_fuel (n : Nat) : ∀ fuel fuel', n < fuel → n < fuel' →
    natToDigitsAux fuel n = natToDigitsAux fuel' n := by
  induction n using Nat.strong_induction_on with
  | _ n ih =>
    intro fuel fuel' h h'
    cases fuel with
    | zero => omega
    | succ f =>
      cases fuel' with
      | zero => omega
      | succ f' =>
        simp only [natToDigitsAux]
        by_cases h10 : n < 10
        · rw [if_pos h10, if_pos h10]
        · rw [if_neg h10, if_neg h10]
          have hdiv : n / 10 < n := Nat.div_lt_self (by omega) (by norm_num)
          rw [ih (n / 10) hdiv f f' (by omega) (by omega)]

theorem natToDigits_eq (n : Nat) :
    natToDigits n = if n < 10 then [digitChar n]
      else natToDigits (n / 10) ++ [digitChar (n % 10)] := by
  show natToDigitsAux (n + 1) n = _
  simp only [natToDigitsAux]
  by_cases h10 : n < 10
  · rw [if_pos h10, if_pos h10]
  · rw [if_neg h10, if_neg h10]
    have hdiv : n / 10 < n := Nat.div_lt_self (by omega) (by norm_num)
    rw [natToDigitsAux_fuel (n / 10) n (n / 10 + 1) (by omega) (by omega)]
    rfl

theorem natToDigits_ne_nil (n : Nat) : natToDigits n ≠ [] := by
  induction n using Nat.strong_induction_on with
  | _ n ih =>
    rw [natToDigits_eq]
    by_cases h10 : n < 10
    · rw [if_pos h10]; simp
    · rw [if_neg h10]; simp

theorem natToDigits_head_digit (n : Nat) :
    ∃ d ds, natToDigits n = d :: ds ∧ isDigitCh d = true ∧ (1 ≤ n → d ≠ '0') := by
  induction n using Nat.strong_induction_on with
  | _ n ih =>
    rw [natToDigits_eq]
    by_cases h10 : n < 10
    · rw [if_pos h10]
      exact ⟨digitChar n, [], rfl, digitChar_digit n h10, fun h1 => digitChar_ne_zero n h10 h1⟩
    · rw [if_neg h10]
      have hdiv : n / 10 < n := Nat.div_lt_self (by omega) (by norm_num)
      obtain ⟨d, ds, hds, hdd, hd0⟩ := ih (n / 10) hdiv
      refine ⟨d, ds ++ [digitChar (n % 10)], by rw [hds]; simp, hdd, fun _ => hd0 ?_⟩
      omega

theorem parseDigits_step (acc : Nat) {rest : List Char} (h : noLeadDigit rest) :
    parseDigits rest acc = (acc, rest) := by
  cases rest with
  | nil => rfl
  | cons c r =>
    simp only [noLeadDigit] at h
    simp [parseDigits, h]

theorem parseDigits_append (n : Nat) : ∀ (acc : Nat) (rest : List Char),
    parseDigits (natToDigits n ++ rest) acc
      = parseDigits rest (acc * 10 ^ (natToDigits n).length + n) := by
  induction n using Nat.strong_induction_on with
  | _ n ih =>
    intro acc rest
    rw [natToDigits_eq]
    by_cases h10 : n < 10
    · rw [if_pos h10]
      simp only [List.cons_append, List.nil_append, List.length_cons, List.length_nil]
      simp only [parseDigits, digitChar_digit n h10, if_pos]
      rw [digitChar_toNat n h10]
      norm_num
    · rw [if_neg h10]
      have hdiv : n / 10 < n := Nat.div_lt_self (by omega) (by norm_num)
      rw [List.append_assoc, ih (n / 10) hdiv acc _]
      have hd : n % 10 < 10 := Nat.mod_lt n (by norm_num)
      simp only [List.singleton_append]
      simp only [parseDigits, digitChar_digit _ hd, if_pos]
      rw [digitChar_toNat _ hd]
      have harith : (acc * 10 ^ (natToDigits (n / 10)).length + n / 10) * 10 + (48 + n % 10 - 48)
          = acc * 10 ^ (natToDigits (n / 10) ++ [digitChar (n % 10)]).length + n := by
        rw [List.length_append, List.length_singleton, pow_succ]
        have := Nat.div_add_mod n 10
        ring_nf
        omega
      rw [harith]

theorem parseNat_encode (n : Nat) (rest : List Char) (h : noLeadDigit rest) :
    parseNat (natToDigits n ++ rest) = some (n, rest) := by
  by_cases h0 : n = 0
  · subst h0
    rw [show natToDigits 0 = ['0'] from rfl]
    simp [parseNat]
  · obtain ⟨d, ds, hds, hdd, hd0⟩ := natToDigits_head_digit n
    have hd0' := hd0 (by omega)
    rw [hds]
    simp only [List.cons_append, parseNat]
    rw [if_neg hd0', if_pos hdd]
    have h2 : parseDigits ((d :: ds) ++ rest) 0 = parseDigits (ds ++ rest) (d.toNat - 48) := by
      simp [parseDigits, hdd]
    have h1 : parseDigits ((d :: ds) ++ rest) 0 = (n, rest) := by
      rw [← hds, parseDigits_append n 0 rest]
      simp only [Nat.zero_mul, Nat.zero_add]
      exact parseDigits_step n h
    rw [← h2, h1]

theorem parseStrChars_append (s : List Char) : ∀ rest,
    parseStrChars (escList s ++ '"' :: rest) = some (s, rest) := by
  induction s with
  | nil =>
    intro rest
    simp only [escList, List.nil_append]
    rw [parseStrChars.eq_def]
    simp
  | cons c cs ih =>
    intro rest
    simp only [escList, List.append_assoc]
    by_cases h1 : c = '"'
    · subst h1
      rw [show escapeChar '"' = ['\\', '"'] from by decide]
      simp only [List.cons_append]
      rw [parseStrChars.eq_def]
      simp +decide [escDecode, consFirst, ih rest]
    · by_cases h2 : c = '\\'
      · subst h2
        rw [show escapeChar '\\' = ['\\', '\\'] from by decide]
        simp only [List.cons_append]
        rw [parseStrChars.eq_def]
        simp +decide [escDecode, consFirst, ih rest]
      · by_cases h3 : c = '\x08'
        · subst h3
          rw [show escapeChar '\x08' = ['\\', 'b'] from by decide]
          simp only [List.cons_append]
          rw [parseStrChars.eq_def]
          simp +decide [escDecode, consFirst, ih rest]
        · by_cases h4 : c = '\x0c'
          · subst h4
            rw [show escapeChar '\x0c' = ['\\', 'f'] from by decide]
            simp only [List.cons_append]
            rw [parseStrChars.eq_def]
            simp +decide [escDecode, consFirst, ih rest]
          · by_cases h5 : c = '\n'
            · subst h5
              rw [show escapeChar '\n' = ['\\', 'n'] from by decide]
              simp only [List.cons_append]
              rw [parseStrChars.eq_def]
              simp +decide [escDecode, consFirst, ih rest]
            · by_cases h6 : c = '\r'
              · subst h6
                rw [show escapeChar '\r' = ['\\', 'r'] from by decide]
                simp only [List.cons_append]
                rw [parseStrChars.eq_def]
                simp +decide [escDecode, consFirst, ih rest]
              · by_cases h7 : c = '\t'
                · subst h7
                  rw [show escapeChar '\t' = ['\\', 't'] from by decide]
                  simp only [List.cons_append]
                  rw [parseStrChars.eq_def]
                  simp +decide [escDecode, consFirst, ih rest]
                · by_cases h8 : c.toNat < 32
                  · rw [show escapeChar c
                        = ['\\', 'u', '0', '0', hexDigit (c.toNat / 16), hexDigit (c.toNat % 16)] from by
                      simp only [escapeChar, if_neg h1, if_neg h2, if_neg h3, if_neg h4,
                        if_neg h5, if_neg h6, if_neg h7, if_pos h8]]
                    simp only [List.cons_append]
                    rw [parseStrChars.eq_def]
                    have hdiv : c.toNat / 16 < 16 := by omega
                    have hmod : c.toNat % 16 < 16 := by omega
                    have h55 : c.toNat < 55296 := by omega
                    simp +decide [hexVal_hexDigit _ hdiv, hexVal_hexDigit _ hmod, h55,
                      Nat.div_add_mod', Char.ofNat_toNat, consFirst, ih rest,
                      show hexVal '0' = some 0 from by decide]
                  · rw [show escapeChar c = [c] from by
                      simp only [escapeChar, if_neg h1, if_neg h2, if_neg h3, if_neg h4,
                        if_neg h5, if_neg h6, if_neg h7, if_neg h8]]
                    simp only [List.cons_append, List.nil_append]
                    rw [parseStrChars.eq_def]
                    simp [h1, h2, h8, consFirst, ih rest]

@[simp] theorem string_mk_data (s : String) : String.mk s.data = s := rfl

mutual
def jfuel : JVal → Nat
  | JVal.arr l => 1 + jfuelL l
  | JVal.obj l => 1 + jfuelO l
  | _ => 1
def jfuelL : List JVal → Nat
  | [] => 0
  | v :: r => 1 + jfuel v + jfuelL r
def jfuelO : List (String × JVal) → Nat
  | [] => 0
  | (_, v) :: r => 1 + jfuel v + jfuelO r
end

theorem jfuel_pos (v : JVal) : 1 ≤ jfuel v := by
  cases v <;> simp [jfuel]

theorem encodeChars_head (v : JVal) :
    ∃ hd tl, encodeChars v = hd :: tl ∧ isWsCh hd = false ∧ hd ≠ ']' ∧ hd ≠ '\x7d' := by
  cases v with
  | null => exact ⟨'n', _, rfl, by decide, by decide, by decide⟩
  | bool b =>
    cases b
    · exact ⟨'f', _, rfl, by decide, by decide, by decide⟩
    · exact ⟨'t', _, rfl, by decide, by decide, by decide⟩
  | num i =>
    by_cases hi : i < 0
    · exact ⟨'-', natToDigits i.natAbs,
        by simp [encodeChars, intToChars, hi], by decide, by decide, by decide⟩
    · obtain ⟨d, ds, hds, hdd, -⟩ := natToDigits_head_digit i.natAbs
      obtain ⟨-, -, -, -, -, -, -, hws, hne1, hne2, -, -⟩ := digit_facts hdd
      exact ⟨d, ds, by simp [encodeChars, intToChars, hi, hds], hws, hne1, hne2⟩
  | str s => exact ⟨'"', _, rfl, by decide, by decide, by decide⟩
  | arr l => exact ⟨'[', _, rfl, by decide, by decide, by decide⟩
  | obj l => exact ⟨'\x7b', _, rfl, by decide, by decide, by decide⟩

theorem encodeItems_cons (x : JVal) (xs : List JVal) :
    ∃ t, encodeItems (x :: xs) = encodeChars x ++ t := by
  cases xs with
  | nil => exact ⟨[], by simp [encodeItems]⟩
  | cons y ys => exact ⟨',' :: encodeItems (y :: ys), rfl⟩

mutual
theorem parseVal_encode : ∀ (v : JVal) (fuel : Nat) (rest : List Char),
    jfuel v ≤ fuel → noLeadDigit rest →
    parseVal fuel (encodeChars v ++ rest) = some (v, rest)
  | JVal.null => by
    intro fuel rest hf _
    cases fuel with
    | zero => exact absurd hf (by simp [jfuel])
    | succ f => simp +decide [encodeChars, parseVal, skipWs, expectChars]
  | JVal.bool true => by
    intro fuel rest hf _
    cases fuel with
    | zero => exact absurd hf (by simp [jfuel])
    | succ f => simp +decide [encodeChars, parseVal, skipWs, expectChars]
  | JVal.bool false => by
    intro fuel rest hf _
    cases fuel with
    | zero => exact absurd hf (by simp [jfuel])
    | succ f => simp +decide [encodeChars, parseVal, skipWs, expectChars]
  | JVal.num i => by
    intro fuel rest hf hrest
    cases fuel with
    | zero => exact absurd hf (by simp [jfuel])
    | succ f =>
      by_cases hi : i < 0
      · have he : encodeChars (JVal.num i) = '-' :: natToDigits i.natAbs := by
          simp [encodeChars, intToChars, hi]
        rw [he]
        simp only [List.cons_append]
        simp +decide [parseVal, skipWs, parseNat_encode i.natAbs rest hrest]
        rw [abs_of_neg hi]
        simp
      · have he : encodeChars (JVal.num i) = natToDigits i.natAbs := by
          simp [encodeChars, intToChars, hi]
        rw [he]
        obtain ⟨d, ds, hds, hdd, -⟩ := natToDigits_head_digit i.natAbs
        obtain ⟨hn1, hn2, hn3, hn4, hn5, hn6, hn7, hws, -, -, -, -⟩ := digit_facts hdd
        have hpn := parseNat_encode i.natAbs rest hrest
        rw [hds] at hpn ⊢
        simp only [List.cons_append] at hpn ⊢
        simp +decide [parseVal, skipWs, hws, hn1, hn2, hn3, hn4, hn5, hn6, hn7, hdd, hpn,
          Int.natAbs_of_nonneg (show (0 : Int) ≤ i by omega)]
  | JVal.str s => by
    intro fuel rest hf _
    cases fuel with
    | zero => exact absurd hf (by simp [jfuel])
    | succ f =>
      have he : encodeChars (JVal.str s) ++ rest
          = '"' :: (escList s.data ++ ('"' :: rest)) := by
        simp [encodeChars]
      rw [he]
      simp +decide [parseVal, skipWs, parseStrChars_append s.data rest]
  | JVal.arr [] => by
    intro fuel rest hf _
    cases fuel with
    | zero => exact absurd hf (by simp [jfuel])
    | succ f => simp +decide [encodeChars, encodeItems, parseVal, skipWs]
  | JVal.arr (x :: xs) => by
    intro fuel rest hf _
    cases fuel with
    | zero => exact absurd hf (by simp [jfuel])
    | succ f =>
      obtain ⟨hd, tl, hhd, hws, hne1, hne2⟩ := encodeChars_head x
      obtain ⟨t, ht⟩ := encodeItems_cons x xs
      have hsplit : encodeItems (x :: xs) ++ (']' :: rest) = hd :: (tl ++ (t ++ (']' :: rest))) := by
        rw [ht, hhd]
        simp
      have hpi : parseItems f (hd :: (tl ++ (t ++ (']' :: rest)))) = some (x :: xs, rest) := by
        rw [← hsplit]
        exact parseItems_encode x xs f rest (by simp [jfuel, jfuelL] at hf ⊢; omega)
      have he : encodeChars (JVal.arr (x :: xs)) ++ rest
          = '[' :: (hd :: (tl ++ (t ++ (']' :: rest)))) := by
        rw [← hsplit]
        simp [encodeChars]
      rw [he]
      simp +decide [parseVal, skipWs, hws, hne1, hpi]
  | JVal.obj [] => by
    intro fuel rest hf _
    cases fuel with
    | zero => exact absurd hf (by simp [jfuel])
    | succ f => simp +decide [encodeChars, encodeMembers, parseVal, skipWs]
  | JVal.obj (e :: es) => by
    intro fuel rest hf _
    cases fuel with
    | zero => exact absurd hf (by simp [jfuel])
    | succ f =>
      have hmem : ∃ t, encodeMembers (e :: es) = '"' :: t := by
        cases e with
        | mk k v =>
          cases es with
          | nil => exact ⟨_, rfl⟩
          | cons f2 fs => exact ⟨_, rfl⟩
      obtain ⟨t, ht⟩ := hmem
      have hsplit : encodeMembers (e :: es) ++ ('\x7d' :: rest)
          = '"' :: (t ++ ('\x7d' :: rest)) := by
        rw [ht]
        simp
      have hpm : parseMembers f ('"' :: (t ++ ('\x7d' :: rest))) = some (e :: es, rest) := by
        rw [← hsplit]
        exact parseMembers_encode e es f rest (by simp [jfuel, jfuelO] at hf ⊢; omega)
      have he : encodeChars (JVal.obj (e :: es)) ++ rest
          = '\x7b' :: ('"' :: (t ++ ('\x7d' :: rest))) := by
        rw [← hsplit]
        simp [encodeChars]
      rw [he]
      simp +decide [parseVal, skipWs, hpm]
termination_by v => sizeOf v
theorem parseItems_encode : ∀ (x : JVal) (xs : List JVal) (fuel : Nat) (rest : List Char),
    jfuelL (x :: xs) ≤ fuel →
    parseItems fuel (encodeItems (x :: xs) ++ ']' :: rest) = some (x :: xs, rest)
  | x, [] => by
    intro fuel rest hf
    cases fuel with
    | zero => exact absurd hf (by simp [jfuelL])
    | succ f =>
      have hv : parseVal f (encodeChars x ++ (']' :: rest)) = some (x, ']' :: rest) :=
        parseVal_encode x f (']' :: rest)
          (by simp [jfuelL] at hf; omega) (by show isDigitCh ']' = false; decide)
      have he : encodeItems [x] ++ ']' :: rest = encodeChars x ++ (']' :: rest) := by
        simp [encodeItems]
      rw [he]
      simp +decide [parseItems, skipWs, hv]
  | x, y :: ys => by
    intro fuel rest hf
    cases fuel with
    | zero => exact absurd hf (by simp [jfuelL])
    | succ f =>
        have hv : parseVal f (encodeChars x ++ (',' :: (encodeItems (y :: ys) ++ (']' :: rest))))
            = some (x, ',' :: (encodeItems (y :: ys) ++ (']' :: rest))) :=
          parseVal_encode x f _
            (by simp [jfuelL] at hf ⊢; omega) (by show isDigitCh ',' = false; decide)
        have hrec : parseItems f (encodeItems (y :: ys) ++ ']' :: rest)
            = some (y :: ys, rest) :=
          parseItems_encode y ys f rest (by simp [jfuelL] at hf ⊢; omega)
        have he : encodeItems (x :: y :: ys) ++ ']' :: rest
            = encodeChars x ++ (',' :: (encodeItems (y :: ys) ++ (']' :: rest))) := by
          show (encodeChars x ++ ',' :: encodeItems (y :: ys)) ++ ']' :: rest = _
          simp
        rw [he]
        simp +decide [parseItems, skipWs, hv, hrec]
termination_by x xs => sizeOf (x :: xs)
theorem parseMembers_encode :
    ∀ (e : String × JVal) (es : List (String × JVal)) (fuel : Nat) (rest : List Char),
    jfuelO (e :: es) ≤ fuel →
    parseMembers fuel (encodeMembers (e :: es) ++ '\x7d' :: rest) = some (e :: es, rest)
  | (k, v), [] => by
    intro fuel rest hf
    cases fuel with
    | zero => exact absurd hf (by simp [jfuelO])
    | succ f =>
      have hs : parseStrChars (escList k.data ++ ('"' :: (':' :: (encodeChars v ++ ('\x7d' :: rest)))))
          = some (k.data, ':' :: (encodeChars v ++ ('\x7d' :: rest))) := by
        have := parseStrChars_append k.data (':' :: (encodeChars v ++ ('\x7d' :: rest)))
        simpa using this
      have hv : parseVal f (encodeChars v ++ ('\x7d' :: rest)) = some (v, '\x7d' :: rest) :=
        parseVal_encode v f ('\x7d' :: rest)
          (by simp [jfuelO] at hf; omega) (by show isDigitCh '\x7d' = false; decide)
      have he : encodeMembers [(k, v)] ++ '\x7d' :: rest
          = '"' :: (escList k.data ++ ('"' :: (':' :: (encodeChars v ++ ('\x7d' :: rest))))) := by
        show ('"' :: escList k.data ++ '"' :: ':' :: encodeChars v) ++ '\x7d' :: rest = _
        simp
      rw [he]
      simp +decide [parseMembers, skipWs, hs, hv]
  | (k, v), e2 :: es2 => by
    intro fuel rest hf
    cases fuel with
    | zero => exact absurd hf (by simp [jfuelO])
    | succ f =>
        have hs : parseStrChars (escList k.data
              ++ ('"' :: (':' :: (encodeChars v
                ++ (',' :: (encodeMembers (e2 :: es2) ++ ('\x7d' :: rest)))))))
            = some (k.data, ':' :: (encodeChars v
                ++ (',' :: (encodeMembers (e2 :: es2) ++ ('\x7d' :: rest))))) := by
          have := parseStrChars_append k.data
            (':' :: (encodeChars v ++ (',' :: (encodeMembers (e2 :: es2) ++ ('\x7d' :: rest)))))
          simpa using this
        have hv : parseVal f (encodeChars v
              ++ (',' :: (encodeMembers (e2 :: es2) ++ ('\x7d' :: rest))))
            = some (v, ',' :: (encodeMembers (e2 :: es2) ++ ('\x7d' :: rest))) :=
          parseVal_encode v f _
            (by simp [jfuelO] at hf ⊢; omega) (by show isDigitCh ',' = false; decide)
        have hrec : parseMembers f (encodeMembers (e2 :: es2) ++ '\x7d' :: rest)
            = some (e2 :: es2, rest) :=
          parseMembers_encode e2 es2 f rest (by simp [jfuelO] at hf ⊢; omega)
        have he : encodeMembers ((k, v) :: e2 :: es2) ++ '\x7d' :: rest
            = '"' :: (escList k.data ++ ('"' :: (':' :: (encodeChars v
                ++ (',' :: (encodeMembers (e2 :: es2) ++ ('\x7d' :: rest))))))) := by
          show (('"' :: escList k.data ++ '"' :: ':' :: encodeChars v)
            ++ ',' :: encodeMembers (e2 :: es2)) ++ '\x7d' :: rest = _
          simp
        rw [he]
        simp +decide [parseMembers, skipWs, hs, hv, hrec]
termination_by e es => sizeOf (e :: es)
end

@[simp] theorem data_string_mk (l : List Char) : (String.mk l).data = l := rfl

mutual
theorem jfuel_le : ∀ v : JVal, jfuel v ≤ 2 * (encodeChars v).length
  | JVal.null => by simp [jfuel, encodeChars]
  | JVal.bool true => by simp [jfuel, encodeChars]
  | JVal.bool false => by simp [jfuel, encodeChars]
  | JVal.num i => by
    have hne : intToChars i ≠ [] := by
      unfold intToChars
      split
      · simp
      · exact natToDigits_ne_nil i.natAbs
    have : 1 ≤ (intToChars i).length := List.length_pos.mpr hne
    simp only [jfuel, encodeChars]
    omega
  | JVal.str s => by
    simp only [jfuel, encodeChars, List.length_cons, List.length_append]
    omega
  | JVal.arr l => by
    have h := jfuelL_le l
    simp only [jfuel, encodeChars, List.length_cons, List.length_append,
      List.length_singleton]
    omega
  | JVal.obj l => by
    have h := jfuelO_le l
    simp only [jfuel, encodeChars, List.length_cons, List.length_append,
      List.length_singleton]
    omega
theorem jfuelL_le : ∀ l : List JVal, jfuelL l ≤ 2 * (encodeItems l).length + 1
  | [] => by simp [jfuelL, encodeItems]
  | [x] => by
    have h := jfuel_le x
    simp only [jfuelL, encodeItems]
    omega
  | x :: y :: ys => by
    have h1 := jfuel_le x
    have h2 := jfuelL_le (y :: ys)
    simp only [jfuelL] at h2
    simp only [jfuelL, encodeItems, List.length_append, List.length_cons]
    omega
theorem jfuelO_le : ∀ l : List (String × JVal), jfuelO l ≤ 2 * (encodeMembers l).length + 1
  | [] => by simp [jfuelO, encodeMembers]
  | [(k, v)] => by
    have h := jfuel_le v
    simp only [jfuelO, encodeMembers, List.length_cons, List.length_append]
    omega
  | (k, v) :: e :: es => by
    have h1 := jfuel_le v
    have h2 := jfuelO_le (e :: es)
    simp only [jfuelO] at h2
    simp only [jfuelO, encodeMembers, List.length_cons, List.length_append]
    omega
end

/-- The JSON encoder and parser of the model invert each other. -/
theorem parseJson_encodeJson (v : JVal) : parseJson (encodeJson v) = some v := by
  unfold parseJson encodeJson
  simp only [data_string_mk]
  have hlen : jfuel v ≤ 2 * (encodeChars v).length + 2 :=
    le_trans (jfuel_le v) (by omega)
  have h := parseVal_encode v (2 * (encodeChars v).length + 2) [] hlen trivial
  rw [List.append_nil] at h
  rw [h]
  simp [skipWs]

/-- C2 is refuted as stated: a string that happens to be JSON text does
not round-trip through the shim; set stores the string "1" as-is and
get delivers the number 1. -/
theorem stringify_parse_not_involutive :
    parse (stringify (JVal.str "1")) = JVal.num 1 ∧ JVal.num 1 ≠ JVal.str "1" :=
  ⟨by decide, by decide⟩

/-- C2 (amended): the scalar shim round-trips every non-string value
(parse (stringify v) = v), and round-trips a string exactly when the
string is not itself parseable JSON text; a string that parses as JSON
is delivered as the parsed value instead. -/
theorem stringify_parse_roundtrip :
    (∀ v : JVal, (∀ s, v ≠ JVal.str s) → parse (stringify v) = v) ∧
    (∀ s : String, parseJson s = none → parse (stringify (JVal.str s)) = JVal.str s) := by
  constructor
  · intro v hv
    have hs : stringify v = encodeJson v := by
      cases v <;> first | rfl | exact absurd rfl (hv _)
    rw [hs]
    simp [parse, parseJson_encodeJson v]
  · intro s hn
    show parse s = JVal.str s
    simp [parse, hn]

/-- Witness for `stringify_parse_roundtrip` at concrete values. -/
theorem stringify_parse_roundtrip_witness :
    parse (stringify (JVal.num 5)) = JVal.num 5 ∧
    parse (stringify (JVal.str "x")) = JVal.str "x" :=
  ⟨stringify_parse_roundtrip.1 (JVal.num 5) (fun s h => by cases h),
   stringify_parse_roundtrip.2 "x" (by decide)⟩

/-! Round trip of the flat model: helper definitions and lemmas for C8. -/

theorem sizeJ_pos (v : JVal) : 1 ≤ sizeJ v := by
  cases v <;> simp [sizeJ]

theorem length_le_sizeO (l : List (String × JVal)) : l.length ≤ sizeO l := by
  induction l with
  | nil => simp [sizeO]
  | cons kv rest ih =>
    cases kv with
    | mk k v =>
      have := sizeJ_pos v
      simp only [List.length_cons, sizeO]
      omega

/-- A value that flatten emits at a leaf key: not a nonempty object,
and (in the wellformed domain) not an array. -/
def leafLike : JVal → Bool
  | JVal.obj (_ :: _) => false
  | JVal.arr _ => false
  | _ => true

/-- Segment-level flatten: the leaf paths of an object's entries, in
emission order. -/
def leafPaths : List (String × JVal) → List (List String × JVal)
  | [] => []
  | (k, v) :: rest =>
    (match v with
     | JVal.obj (e :: es) => (leafPaths (e :: es)).map (fun pv => (k :: pv.1, pv.2))
     | _ => [([k], v)])
    ++ leafPaths rest

def joinDot (l : List String) : String := joinWith "." l

def optPrev (l : List String) : Option String :=
  match l with
  | [] => none
  | _ => some (joinDot l)

theorem optPrev_ne_nil {l : List String} (h : l ≠ []) : optPrev l = some (joinDot l) := by
  cases l with
  | nil => exact absurd rfl h
  | cons a t => rfl

theorem joinDot_snoc (l : List String) (k : String) (h : l ≠ []) :
    joinDot (l ++ [k]) = joinDot l ++ "." ++ k := by
  induction l with
  | nil => exact absurd rfl h
  | cons a t ih =>
    cases t with
    | nil => rfl
    | cons b t2 =>
      show joinDot (a :: ((b :: t2) ++ [k])) = _
      unfold joinDot
      rw [joinWith_cons _ _ _ (by simp), joinWith_cons _ _ _ (by simp)]
      have := ih (by simp)
      unfold joinDot at this
      rw [show (b :: t2) ++ [k] = (b :: t2) ++ [k] from rfl] at this ⊢
      rw [this]
      simp [String.append_assoc]

theorem joinKey_optPrev (pre : List String) (k : String) :
    joinKey (optPrev pre) k = joinDot (pre ++ [k]) := by
  cases pre with
  | nil => rfl
  | cons a t =>
    rw [optPrev_ne_nil (by simp)]
    show joinDot (a :: t) ++ "." ++ k = _
    rw [joinDot_snoc (a :: t) k (by simp)]

theorem wfEntries_parts {k : String} {v : JVal} {rest : List (String × JVal)}
    (h : wfEntries ((k, v) :: rest) = true) :
    goodKey k = true ∧ wfVal v = true ∧ wfEntries rest = true := by
  simp only [wfEntries, Bool.and_eq_true] at h
  exact ⟨h.1.1, h.1.2, h.2⟩

theorem wfVal_obj_parts {l : List (String × JVal)} (h : wfVal (JVal.obj l) = true) :
    wfEntries l = true ∧ keysUniq (l.map Prod.fst) = true := by
  simp only [wfVal, Bool.and_eq_true] at h
  exact h

/-- Under wellformed entries, the string-level flatten is the
segment-level flatten with the paths joined under the prefix. -/
theorem flattenStep_leafPaths :
    ∀ (entries : List (String × JVal)) (pre : List String),
    wfEntries entries = true →
    flattenStep (optPrev pre) entries
      = (leafPaths entries).map (fun pv => (joinDot (pre ++ pv.1), pv.2))
  | [], pre, _ => by simp [flattenStep, leafPaths]
  | (k, v) :: rest, pre, h => by
    obtain ⟨hk, hv, hrest⟩ := wfEntries_parts h
    have hrec := flattenStep_leafPaths rest pre hrest
    cases v with
    | arr l => exact absurd hv (by simp [wfVal])
    | obj l =>
      cases l with
      | nil =>
        simp only [flattenStep, leafPaths, flattenVal, List.map_append,
          List.map_cons, List.map_nil]
        rw [hrec, joinKey_optPrev]
      | cons e es =>
        obtain ⟨hsub, -⟩ := wfVal_obj_parts hv
        have hrec2 := flattenStep_leafPaths (e :: es) (pre ++ [k]) hsub
        rw [optPrev_ne_nil (by simp)] at hrec2
        simp only [flattenStep, leafPaths, List.map_append]
        rw [hrec, joinKey_optPrev]
        congr 1
        rw [show flattenVal (joinDot (pre ++ [k])) (JVal.obj (e :: es))
            = flattenStep (some (joinDot (pre ++ [k]))) (e :: es) from rfl]
        rw [hrec2]
        simp only [List.map_map]
        apply List.map_congr_left
        intro pv _
        simp [List.append_assoc]
    | null =>
      simp only [flattenStep, leafPaths, flattenVal, List.map_append,
        List.map_cons, List.map_nil]
      rw [hrec, joinKey_optPrev]
    | bool b =>
      simp only [flattenStep, leafPaths, flattenVal, List.map_append,
        List.map_cons, List.map_nil]
      rw [hrec, joinKey_optPrev]
    | num n =>
      simp only [flattenStep, leafPaths, flattenVal, List.map_append,
        List.map_cons, List.map_nil]
      rw [hrec, joinKey_optPrev]
    | str s =>
      simp only [flattenStep, leafPaths, flattenVal, List.map_append,
        List.map_cons, List.map_nil]
      rw [hrec, joinKey_optPrev]

/-- Facts about every emitted leaf path of wellformed entries. -/
theorem leafPaths_facts :
    ∀ (entries : List (String × JVal)),
    wfEntries entries = true →
    ∀ pv ∈ leafPaths entries,
      pv.1 ≠ [] ∧ (∀ s ∈ pv.1, goodKey s = true) ∧
        leafLike pv.2 = true ∧ wfVal pv.2 = true
  | [], _, pv, hm => by rw [leafPaths] at hm; exact absurd hm (List.not_mem_nil pv)
  | (k, v) :: rest, h, pv, hm => by
    obtain ⟨hk, hv, hrest⟩ := wfEntries_parts h
    cases v with
    | arr l => exact absurd hv (by simp [wfVal])
    | obj l =>
      cases l with
      | nil =>
        simp only [leafPaths, List.mem_append, List.mem_singleton] at hm
        rcases hm with rfl | hm
        · exact ⟨by simp, by simp [hk], by simp [leafLike], hv⟩
        · exact leafPaths_facts rest hrest pv hm
      | cons e es =>
        obtain ⟨hsub, -⟩ := wfVal_obj_parts hv
        simp only [leafPaths, List.mem_append, List.mem_map] at hm
        rcases hm with ⟨qv, hqm, rfl⟩ | hm
        · obtain ⟨h1, h2, h3, h4⟩ := leafPaths_facts (e :: es) hsub qv hqm
          refine ⟨by simp, ?_, h3, h4⟩
          intro s hs
          rcases List.mem_cons.mp hs with rfl | hs
          · exact hk
          · exact h2 s hs
        · exact leafPaths_facts rest hrest pv hm
    | null =>
      simp only [leafPaths, List.mem_append, List.mem_singleton] at hm
      rcases hm with rfl | hm
      · exact ⟨by simp, by simp [hk], rfl, rfl⟩
      · exact leafPaths_facts rest hrest pv hm
    | bool b =>
      simp only [leafPaths, List.mem_append, List.mem_singleton] at hm
      rcases hm with rfl | hm
      · exact ⟨by simp, by simp [hk], rfl, rfl⟩
      · exact leafPaths_facts rest hrest pv hm
    | num n =>
      simp only [leafPaths, List.mem_append, List.mem_singleton] at hm
      rcases hm with rfl | hm
      · exact ⟨by simp, by simp [hk], rfl, rfl⟩
      · exact leafPaths_facts rest hrest pv hm
    | str s =>
      simp only [leafPaths, List.mem_append, List.mem_singleton] at hm
      rcases hm with rfl | hm
      · exact ⟨by simp, by simp [hk], rfl, rfl⟩
      · exact leafPaths_facts rest hrest pv hm

/-- The block of leaf paths contributed by a single entry. -/
def blockOf (k : String) (v : JVal) : List (List String × JVal) :=
  match v with
  | JVal.obj (e :: es) => (leafPaths (e :: es)).map (fun pv => (k :: pv.1, pv.2))
  | _ => [([k], v)]

theorem leafPaths_cons (k : String) (v : JVal) (rest : List (String × JVal)) :
    leafPaths ((k, v) :: rest) = blockOf k v ++ leafPaths rest := by
  cases v
  case obj l => cases l <;> simp [leafPaths, blockOf]
  all_goals simp [leafPaths, blockOf]

theorem leafPaths_append (l₁ l₂ : List (String × JVal)) :
    leafPaths (l₁ ++ l₂) = leafPaths l₁ ++ leafPaths l₂ := by
  induction l₁ with
  | nil => rw [List.nil_append, leafPaths, List.nil_append]
  | cons kv t ih =>
    cases kv with
    | mk k v =>
      rw [List.cons_append, leafPaths_cons, leafPaths_cons, ih, List.append_assoc]

theorem blockOf_head (k : String) (v : JVal) :
    ∀ pv ∈ blockOf k v, ∃ t, pv.1 = k :: t := by
  intro pv hm
  cases v
  case obj l =>
    cases l with
    | nil =>
      simp only [blockOf, List.mem_singleton] at hm
      subst hm
      exact ⟨[], rfl⟩
    | cons e es =>
      simp only [blockOf, List.mem_map] at hm
      obtain ⟨qv, -, rfl⟩ := hm
      exact ⟨qv.1, rfl⟩
  all_goals
    (simp only [blockOf, List.mem_singleton] at hm; subst hm; exact ⟨[], rfl⟩)

theorem leafPaths_head_mem :
    ∀ (entries : List (String × JVal)) pv, pv ∈ leafPaths entries →
      ∃ k t, pv.1 = k :: t ∧ k ∈ entries.map Prod.fst
  | [], pv, hm => absurd hm (by rw [leafPaths]; exact List.not_mem_nil pv)
  | (k, v) :: rest, pv, hm => by
    rw [leafPaths_cons, List.mem_append] at hm
    rcases hm with hm | hm
    · obtain ⟨t, ht⟩ := blockOf_head k v pv hm
      exact ⟨k, t, ht, by simp⟩
    · obtain ⟨k', t, ht, hk'⟩ := leafPaths_head_mem rest pv hm
      exact ⟨k', t, ht, by simp [hk']⟩

/-- Mutual prefix-freedom of two flattened paths. -/
def PFree (a b : List String × JVal) : Prop := ¬ a.1 <+: b.1 ∧ ¬ b.1 <+: a.1

theorem cons_prefix_parts {α} {a b : α} {l₁ l₂ : List α}
    (h : (a :: l₁) <+: (b :: l₂)) : a = b ∧ l₁ <+: l₂ := by
  obtain ⟨t, ht⟩ := h
  rw [List.cons_append] at ht
  injection ht with h1 h2
  exact ⟨h1, ⟨t, h2⟩⟩

theorem pfree_consf {k : String} {a b : List String × JVal} (h : PFree a b) :
    PFree (k :: a.1, a.2) (k :: b.1, b.2) :=
  ⟨fun hp => h.1 (cons_prefix_parts hp).2, fun hp => h.2 (cons_prefix_parts hp).2⟩

theorem contains_false_not_mem {α} [BEq α] [LawfulBEq α] {a : α} {l : List α}
    (h : l.contains a = false) : a ∉ l := by
  intro hm
  rw [show l.contains a = l.elem a from rfl, List.elem_eq_true_of_mem hm] at h
  exact Bool.noConfusion h

theorem goodKey_parts {k : String} (h : goodKey k = true) :
    '.' ∉ k.data ∧ jsNumInt k = none := by
  simp only [goodKey, Bool.and_eq_true, Bool.not_eq_true'] at h
  exact ⟨contains_false_not_mem h.1, Option.isNone_iff_eq_none.mp h.2⟩

theorem getkey_ks {k : String} (h : goodKey k = true) : getkey k = FKey.ks k := by
  unfold getkey
  rw [(goodKey_parts h).2]

theorem keysUniq_parts {k : String} {r : List String} (h : keysUniq (k :: r) = true) :
    k ∉ r ∧ keysUniq r = true := by
  simp only [keysUniq, Bool.and_eq_true, Bool.not_eq_true'] at h
  exact ⟨contains_false_not_mem h.1, h.2⟩

theorem splitDot_joinDot (p : List String) (hne : p ≠ [])
    (h : ∀ s ∈ p, goodKey s = true) : splitDot (joinDot p) = p := by
  show splitChar '.' (joinWith "." p) = p
  rw [show ("." : String) = String.mk ['.'] from rfl]
  exact splitChar_joinWith '.' p hne (fun s hs => (goodKey_parts (h s hs)).1)

/-- The leaf paths of wellformed entries with distinct keys are pairwise
prefix-free. -/
theorem leafPaths_pairwise :
    ∀ (entries : List (String × JVal)),
    wfEntries entries = true → keysUniq (entries.map Prod.fst) = true →
    List.Pairwise PFree (leafPaths entries)
  | [], _, _ => by rw [leafPaths]; exact List.Pairwise.nil
  | (k, v) :: rest, hw, hu => by
    obtain ⟨hk, hv, hrest⟩ := wfEntries_parts hw
    simp only [List.map_cons] at hu
    obtain ⟨hknotin, hurest⟩ := keysUniq_parts hu
    rw [leafPaths_cons]
    refine List.pairwise_append.mpr ⟨?_, leafPaths_pairwise rest hrest hurest, ?_⟩
    · cases v
      case obj l =>
        cases l with
        | nil => exact List.pairwise_singleton PFree _
        | cons e es =>
          obtain ⟨hsub, husub⟩ := wfVal_obj_parts hv
          exact List.Pairwise.map _ (fun a b h => pfree_consf h)
            (leafPaths_pairwise (e :: es) hsub husub)
      all_goals exact List.pairwise_singleton PFree _
    · intro a ha b hb
      obtain ⟨t₁, ht₁⟩ := blockOf_head k v a ha
      obtain ⟨k', t₂, ht₂, hk'mem⟩ := leafPaths_head_mem rest b hb
      have hne : k ≠ k' := fun he => hknotin (he ▸ hk'mem)
      constructor
      · intro hp
        rw [ht₁, ht₂] at hp
        exact hne (cons_prefix_parts hp).1
      · intro hp
        rw [ht₁, ht₂] at hp
        exact hne (cons_prefix_parts hp).1.symm

/-- Folding unflatten's insertion walk over segment-level paths. -/
def buildF : List (List String × JVal) → JVal → JVal
  | [], acc => acc
  | (p, x) :: rest, acc => buildF rest (insertWalk acc (p.map FKey.ks) x)

theorem unflatFuel_leaf : ∀ (x : JVal), leafLike x = true → ∀ fuel, unflatFuel fuel x = x := by
  intro x h fuel
  cases fuel with
  | zero => rw [unflatFuel]
  | succ f =>
    cases x with
    | obj l =>
      cases l with
      | nil => simp [unflatFuel, sortByLen, unflatEntries]
      | cons e es => simp [leafLike] at h
    | arr l => simp [leafLike] at h
    | null => simp [unflatFuel]
    | bool b => simp [unflatFuel]
    | num n => simp [unflatFuel]
    | str s => simp [unflatFuel]

theorem exists_perm_preimage {α β} (f : α → β) :
    ∀ (M : List β) (L : List α), M.Perm (L.map f) →
      ∃ L' : List α, M = L'.map f ∧ L'.Perm L := by
  intro M
  induction M with
  | nil =>
    intro L h
    have h0 : L.map f = [] := h.symm.eq_nil
    refine ⟨[], rfl, ?_⟩
    rw [List.map_eq_nil.mp h0]
  | cons b M₂ ih =>
    intro L h
    have hbm : b ∈ L.map f := h.mem_iff.mp (List.mem_cons_self b M₂)
    obtain ⟨a, haL, rfl⟩ := List.mem_map.mp hbm
    obtain ⟨L₁, L₂, rfl⟩ := List.append_of_mem haL
    have h₂ : M₂.Perm ((L₁ ++ L₂).map f) := by
      have hmid : ((L₁ ++ (a :: L₂)).map f).Perm (f a :: (L₁.map f ++ L₂.map f)) := by
        rw [List.map_append, List.map_cons]
        exact List.perm_middle
      rw [List.map_append]
      exact (h.trans hmid).cons_inv
    obtain ⟨L₂', hL₂', hperm⟩ := ih (L₁ ++ L₂) h₂
    refine ⟨a :: L₂', by rw [List.map_cons, hL₂'], ?_⟩
    exact (hperm.cons a).trans List.perm_middle.symm

theorem insertByLen_perm (x : String × JVal) :
    ∀ l, (insertByLen x l).Perm (x :: l)
  | [] => List.Perm.refl _
  | y :: ys => by
    rw [insertByLen]
    split
    · exact ((insertByLen_perm x ys).cons y).trans (List.Perm.swap x y ys)
    · exact List.Perm.refl _

theorem sortByLen_perm : ∀ l, (sortByLen l).Perm l
  | [] => List.Perm.refl _
  | x :: xs => by
    rw [sortByLen]
    exact (insertByLen_perm x (sortByLen xs)).trans ((sortByLen_perm xs).cons x)

/-- On flat entries whose keys join good segment paths and whose values
are leaves, unflatten's entry fold is the segment-level fold. -/
theorem unflatEntries_buildF :
    ∀ (L : List (List String × JVal)) (fuel : Nat) (acc : JVal),
    L.length ≤ fuel →
    (∀ pv ∈ L, pv.1 ≠ [] ∧ (∀ s ∈ pv.1, goodKey s = true) ∧ leafLike pv.2 = true) →
    unflatEntries fuel (L.map (fun pv => (joinDot pv.1, pv.2))) acc = buildF L acc
  | [], fuel, acc, _, _ => by
    rw [List.map_nil, buildF]
    cases fuel <;> rw [unflatEntries]
  | (p, x) :: rest, fuel, acc, hlen, hfacts => by
    cases fuel with
    | zero => simp at hlen
    | succ f =>
      obtain ⟨hne, hgood, hleaf⟩ := hfacts (p, x) (List.mem_cons_self _ _)
      rw [List.map_cons]
      simp only [unflatEntries]
      rw [show splitDot (joinDot p) = p from splitDot_joinDot p hne hgood]
      rw [List.map_congr_left (fun s hs => getkey_ks (hgood s hs))]
      rw [unflatFuel_leaf x hleaf f, buildF]
      refine unflatEntries_buildF rest f _ ?_ (fun pv hm => hfacts pv (List.mem_cons_of_mem _ hm))
      simp only [List.length_cons] at hlen
      omega

/-- unflatten of the flattening of a wellformed object is the
segment-level fold of some permutation of its leaf paths. -/
theorem unflatten_obj_buildF (l : List (String × JVal)) (hw : wfVal (JVal.obj l) = true) :
    ∃ L', L'.Perm (leafPaths l) ∧
      (∀ pv ∈ L', pv.1 ≠ [] ∧ (∀ s ∈ pv.1, goodKey s = true) ∧
        leafLike pv.2 = true ∧ wfVal pv.2 = true) ∧
      List.Pairwise PFree L' ∧
      unflatten (JVal.obj (flattenTop (JVal.obj l))) = buildF L' (JVal.obj []) := by
  obtain ⟨hwe, hku⟩ := wfVal_obj_parts hw
  have hflat : flattenTop (JVal.obj l)
      = (leafPaths l).map (fun pv => (joinDot pv.1, pv.2)) := by
    show flattenStep none l = _
    rw [show (none : Option String) = optPrev [] from rfl,
      flattenStep_leafPaths l [] hwe]
    simp only [List.nil_append]
  obtain ⟨L', hL'eq, hL'perm⟩ := exists_perm_preimage
    (fun pv : List String × JVal => (joinDot pv.1, pv.2))
    (sortByLen (flattenTop (JVal.obj l))) (leafPaths l)
    (by rw [← hflat]; exact sortByLen_perm _)
  have hfacts : ∀ pv ∈ L', pv.1 ≠ [] ∧ (∀ s ∈ pv.1, goodKey s = true) ∧
      leafLike pv.2 = true ∧ wfVal pv.2 = true :=
    fun pv hm => leafPaths_facts l hwe pv (hL'perm.mem_iff.mp hm)
  refine ⟨L', hL'perm, hfacts, ?_, ?_⟩
  · exact (hL'perm.pairwise_iff (fun h => ⟨h.2, h.1⟩)).mpr
      (leafPaths_pairwise l hwe hku)
  · show unflatFuel (sizeJ (JVal.obj (flattenTop (JVal.obj l)))) _ = _
    rw [show sizeJ (JVal.obj (flattenTop (JVal.obj l)))
        = sizeO (flattenTop (JVal.obj l)) + 1 by rw [sizeJ]; omega]
    simp only [unflatFuel]
    rw [hL'eq]
    have hlen : L'.length ≤ sizeO (flattenTop (JVal.obj l)) := by
      have h2 := (sortByLen_perm (flattenTop (JVal.obj l))).length_eq
      rw [hL'eq, List.length_map] at h2
      rw [h2]
      exact length_le_sizeO _
    exact unflatEntries_buildF L' _ _ hlen
      (fun pv hm => ⟨(hfacts pv hm).1, (hfacts pv hm).2.1, (hfacts pv hm).2.2.1⟩)

theorem blockOf_obj_cons (k : String) (e : String × JVal) (es : List (String × JVal)) :
    blockOf k (JVal.obj (e :: es))
      = (leafPaths (e :: es)).map (fun pv => (k :: pv.1, pv.2)) := rfl

theorem blockOf_leaf {v : JVal} (h : leafLike v = true) (k : String) :
    blockOf k v = [([k], v)] := by
  cases v
  case obj l =>
    cases l with
    | nil => rfl
    | cons e es => simp [leafLike] at h
  case arr l => simp [leafLike] at h
  all_goals rfl

theorem leafPaths_cons_ne_nil :
    ∀ (k : String) (v : JVal) (rest : List (String × JVal)),
      leafPaths ((k, v) :: rest) ≠ []
  | k, JVal.obj ((k2, v2) :: es), rest => by
    rw [leafPaths_cons, blockOf_obj_cons]
    intro he
    rcases List.append_eq_nil.mp he with ⟨h1, -⟩
    exact leafPaths_cons_ne_nil k2 v2 es (List.map_eq_nil.mp h1)
  | k, JVal.obj [], rest => by rw [leafPaths_cons]; simp [blockOf]
  | k, JVal.null, rest => by rw [leafPaths_cons]; simp [blockOf]
  | k, JVal.bool b, rest => by rw [leafPaths_cons]; simp [blockOf]
  | k, JVal.num n, rest => by rw [leafPaths_cons]; simp [blockOf]
  | k, JVal.str s, rest => by rw [leafPaths_cons]; simp [blockOf]
  | k, JVal.arr l, rest => by rw [leafPaths_cons]; simp [blockOf]

theorem blockOf_ne_nil (k : String) (v : JVal) : blockOf k v ≠ [] := by
  cases v
  case obj l =>
    cases l with
    | nil => simp [blockOf]
    | cons e es =>
      cases e with
      | mk k2 v2 =>
        rw [blockOf_obj_cons]
        intro he
        exact leafPaths_cons_ne_nil k2 v2 es (List.map_eq_nil.mp he)
  all_goals simp [blockOf]

theorem lookupObj_none_iff :
    ∀ (al : List (String × JVal)) (k : String),
      lookupObj al k = none ↔ k ∉ al.map Prod.fst
  | [], k => by simp [lookupObj]
  | (a, v) :: rest, k => by
    rw [lookupObj]
    split
    · rename_i he
      subst he
      simp
    · rename_i hne
      rw [lookupObj_none_iff rest k]
      simp only [List.map_cons, List.mem_cons]
      constructor
      · intro h hm
        rcases hm with rfl | hm
        · exact hne rfl
        · exact h hm
      · intro h hm
        exact h (Or.inr hm)

theorem setObjKey_fresh :
    ∀ (al : List (String × JVal)) (k : String) (w : JVal),
      lookupObj al k = none → setObjKey al k w = al ++ [(k, w)]
  | [], k, w, _ => rfl
  | (a, v) :: rest, k, w, h => by
    rw [lookupObj] at h
    rw [setObjKey]
    split
    · rename_i he
      rw [he] at h
      simp at h
    · rename_i hne
      rw [setObjKey_fresh rest k w (by rw [if_neg hne] at h; exact h)]
      simp

theorem setObjKey_replace_decomp :
    ∀ (al : List (String × JVal)) (k : String) (v w : JVal),
      lookupObj al k = some v →
      ∃ al₁ al₂, al = al₁ ++ (k, v) :: al₂ ∧
        setObjKey al k w = al₁ ++ (k, w) :: al₂ ∧ k ∉ al₁.map Prod.fst
  | [], k, v, w, h => by simp [lookupObj] at h
  | (a, u) :: rest, k, v, w, h => by
    rw [lookupObj] at h
    rw [setObjKey]
    by_cases he : a = k
    · subst he
      rw [if_pos rfl] at h
      injection h with h
      subst h
      exact ⟨[], rest, by simp, by simp, by simp⟩
    · rw [if_neg he] at h
      obtain ⟨al₁, al₂, h1, h2, h3⟩ := setObjKey_replace_decomp rest k v w h
      refine ⟨(a, u) :: al₁, al₂, by rw [h1]; simp,
        by rw [if_neg he, h2, List.cons_append], ?_⟩
      simp only [List.map_cons, List.mem_cons]
      intro hm
      rcases hm with hm | hm
      · exact he hm.symm
      · exact h3 hm

theorem wfEntries_append (l₁ l₂ : List (String × JVal)) :
    wfEntries (l₁ ++ l₂) = (wfEntries l₁ && wfEntries l₂) := by
  induction l₁ with
  | nil => simp [wfEntries]
  | cons kv t ih =>
    cases kv with
    | mk k v => simp [wfEntries, ih, Bool.and_assoc]

theorem keysUniq_iff_nodup : ∀ (ks : List String), keysUniq ks = true ↔ ks.Nodup
  | [] => by simp [keysUniq]
  | k :: r => by
    rw [keysUniq, List.nodup_cons, Bool.and_eq_true, Bool.not_eq_true',
      ← keysUniq_iff_nodup r]
    constructor
    · intro h
      exact ⟨contains_false_not_mem h.1, h.2⟩
    · intro h
      refine ⟨?_, h.2⟩
      cases hc : r.contains k with
      | false => rfl
      | true => exact absurd (List.mem_of_elem_eq_true hc) h.1

theorem mem_leafPaths_of_entry {al al₁ al₂ : List (String × JVal)} {k : String}
    {v : JVal} (hdec : al = al₁ ++ (k, v) :: al₂)
    {qv : List String × JVal} (hqm : qv ∈ blockOf k v) : qv ∈ leafPaths al := by
  rw [hdec, leafPaths_append, leafPaths_cons]
  exact List.mem_append.mpr (Or.inr (List.mem_append.mpr (Or.inl hqm)))

theorem leaf_entry_blocks_path {al al₁ al₂ : List (String × JVal)} {k : String}
    {v : JVal} (hdec : al = al₁ ++ (k, v) :: al₂) (hlv : leafLike v = true)
    {p2 : List String}
    (hfree : ∀ qv ∈ leafPaths al, ¬ (k :: p2) <+: qv.1 ∧ ¬ qv.1 <+: (k :: p2)) :
    False := by
  have hm : (([k], v) : List String × JVal) ∈ leafPaths al :=
    mem_leafPaths_of_entry hdec (by rw [blockOf_leaf hlv]; simp)
  exact (hfree _ hm).2 ⟨p2, rfl⟩

theorem insertWalk_descend {al : List (String × JVal)} {k : String} {sub : JVal}
    (f2 : FKey) (fs : List FKey) (x : JVal)
    (hlk : lookupObj al k = some sub) (hc : isContainer sub = true) :
    insertWalk (JVal.obj al) (FKey.ks k :: f2 :: fs) x
      = JVal.obj (setObjKey al k (insertWalk sub (f2 :: fs) x)) := by
  rw [insertWalk.eq_def]
  dsimp only
  rw [show getSlot (JVal.obj al) (FKey.ks k) = some sub from hlk]
  dsimp only
  rw [hc]
  rw [if_pos rfl]
  rfl

theorem insertWalk_fresh_obj {al : List (String × JVal)} {k : String} (k2 : String)
    (fs : List FKey) (x : JVal) (hlk : lookupObj al k = none) :
    insertWalk (JVal.obj al) (FKey.ks k :: FKey.ks k2 :: fs) x
      = JVal.obj (setObjKey al k (insertWalk (JVal.obj []) (FKey.ks k2 :: fs) x)) := by
  rw [insertWalk.eq_def]
  dsimp only
  rw [show getSlot (JVal.obj al) (FKey.ks k) = none from hlk]
  rfl

/-- One insertion of unflatten's walk into a wellformed object along a
good, prefix-free path: the result is a wellformed object whose leaf
paths gain exactly the inserted path. -/
theorem insertWalk_paths :
    ∀ (p : List String) (al : List (String × JVal)) (x : JVal),
    wfVal (JVal.obj al) = true →
    p ≠ [] → (∀ s ∈ p, goodKey s = true) →
    leafLike x = true → wfVal x = true →
    (∀ qv ∈ leafPaths al, ¬ p <+: qv.1 ∧ ¬ qv.1 <+: p) →
    ∃ al' : List (String × JVal),
      insertWalk (JVal.obj al) (p.map FKey.ks) x = JVal.obj al' ∧
      wfVal (JVal.obj al') = true ∧
      (leafPaths al').Perm ((p, x) :: leafPaths al)
  | [], _, _, _, hne, _, _, _, _ => absurd rfl hne
  | [k], al, x, hw, _, hgood, hleaf, hwx, hfree => by
    obtain ⟨hwe, hku⟩ := wfVal_obj_parts hw
    have hlk : lookupObj al k = none := by
      cases hlk : lookupObj al k with
      | none => rfl
      | some v =>
        obtain ⟨al₁, al₂, hdec, -, -⟩ := setObjKey_replace_decomp al k v v hlk
        obtain ⟨qv, hqm⟩ := List.exists_mem_of_ne_nil _ (blockOf_ne_nil k v)
        obtain ⟨t, ht⟩ := blockOf_head k v qv hqm
        exact absurd ⟨t, by rw [List.singleton_append, ht]⟩
          (hfree qv (mem_leafPaths_of_entry hdec hqm)).1
    have hset : setObjKey al k x = al ++ [(k, x)] := setObjKey_fresh al k x hlk
    refine ⟨al ++ [(k, x)], ?_, ?_, ?_⟩
    · simp only [List.map_cons, List.map_nil, insertWalk]
      rw [show setSlot (JVal.obj al) (FKey.ks k) x
          = JVal.obj (setObjKey al k x) from rfl, hset]
    · simp only [wfVal, Bool.and_eq_true]
      constructor
      · rw [wfEntries_append]
        simp only [Bool.and_eq_true]
        exact ⟨hwe, by simp [wfEntries, hgood k (by simp), hwx]⟩
      · rw [keysUniq_iff_nodup]
        simp only [List.map_append, List.map_cons, List.map_nil]
        rw [List.nodup_append]
        refine ⟨(keysUniq_iff_nodup _).mp hku, List.nodup_singleton _, ?_⟩
        intro a ha hb
        rw [List.mem_singleton] at hb
        subst hb
        exact (lookupObj_none_iff al a).mp hlk ha
    · rw [leafPaths_append, leafPaths_cons, blockOf_leaf hleaf]
      have h0 : leafPaths ([] : List (String × JVal)) = [] := by rw [leafPaths]
      rw [h0, List.append_nil]
      exact List.perm_append_singleton _ _
  | k :: k2 :: rest, al, x, hw, _, hgood, hleaf, hwx, hfree => by
    obtain ⟨hwe, hku⟩ := wfVal_obj_parts hw
    have hgk : goodKey k = true := hgood k (by simp)
    have hgood2 : ∀ s ∈ k2 :: rest, goodKey s = true := fun s hs => hgood s (by simp [hs])
    cases hlk : lookupObj al k with
    | some sub =>
      obtain ⟨al₁, al₂, hdec, hsetEq, -⟩ := setObjKey_replace_decomp al k sub
        (insertWalk sub (FKey.ks k2 :: List.map FKey.ks rest) x) hlk
      have hwsub : wfVal sub = true := by
        have h := hwe
        rw [hdec, wfEntries_append] at h
        simp only [Bool.and_eq_true] at h
        exact (wfEntries_parts h.2).2.1
      cases sub with
      | arr l => exact absurd hwsub (by simp [wfVal])
      | null => exact (leaf_entry_blocks_path hdec rfl hfree).elim
      | bool b => exact (leaf_entry_blocks_path hdec rfl hfree).elim
      | num n => exact (leaf_entry_blocks_path hdec rfl hfree).elim
      | str s => exact (leaf_entry_blocks_path hdec rfl hfree).elim
      | obj l =>
        cases l with
        | nil => exact (leaf_entry_blocks_path hdec rfl hfree).elim
        | cons e es =>
          have hfree' : ∀ qv ∈ leafPaths (e :: es),
              ¬ (k2 :: rest) <+: qv.1 ∧ ¬ qv.1 <+: (k2 :: rest) := by
            intro qv hqm
            have hmem : ((k :: qv.1, qv.2) : List String × JVal) ∈ leafPaths al :=
              mem_leafPaths_of_entry hdec (by
                rw [blockOf_obj_cons]
                exact List.mem_map.mpr ⟨qv, hqm, rfl⟩)
            have h2 := hfree _ hmem
            constructor
            · intro hp
              obtain ⟨t, ht⟩ := hp
              exact h2.1 ⟨t, by rw [List.cons_append, ht]⟩
            · intro hp
              obtain ⟨t, ht⟩ := hp
              exact h2.2 ⟨t, by rw [List.cons_append, ht]⟩
          obtain ⟨al'', hEq'', hwf'', hperm''⟩ :=
            insertWalk_paths (k2 :: rest) (e :: es) x hwsub (by simp) hgood2 hleaf hwx hfree'
          rw [List.map_cons] at hEq''
          rw [hEq''] at hsetEq
          have hne'' : al'' ≠ [] := by
            intro h0
            subst h0
            have hnil : leafPaths ([] : List (String × JVal)) = [] := by rw [leafPaths]
            rw [hnil] at hperm''
            exact absurd hperm''.symm.eq_nil (by simp)
          obtain ⟨a'', t'', rfl⟩ := List.exists_cons_of_ne_nil hne''
          have hEfull : insertWalk (JVal.obj al)
              (FKey.ks k :: FKey.ks k2 :: List.map FKey.ks rest) x
              = JVal.obj (al₁ ++ (k, JVal.obj (a'' :: t'')) :: al₂) := by
            rw [insertWalk_descend (FKey.ks k2) (List.map FKey.ks rest) x hlk rfl]
            rw [hEq'', hsetEq]
          refine ⟨al₁ ++ (k, JVal.obj (a'' :: t'')) :: al₂, hEfull, ?_, ?_⟩
          · simp only [wfVal, Bool.and_eq_true]
            constructor
            · have h := hwe
              rw [hdec, wfEntries_append] at h
              simp only [Bool.and_eq_true] at h
              obtain ⟨h1, h2⟩ := h
              obtain ⟨hgk', hwsub', hrest'⟩ := wfEntries_parts h2
              rw [wfEntries_append]
              simp only [Bool.and_eq_true]
              exact ⟨h1, by simp [wfEntries, hgk', hwf'', hrest']⟩
            · have hkeys : (al₁ ++ (k, JVal.obj (a'' :: t'')) :: al₂).map Prod.fst
                  = al.map Prod.fst := by
                rw [hdec]; simp
              rw [hkeys]; exact hku
          · have hL : leafPaths (al₁ ++ (k, JVal.obj (a'' :: t'')) :: al₂)
                = leafPaths al₁
                  ++ ((leafPaths (a'' :: t'')).map (fun pv => (k :: pv.1, pv.2))
                      ++ leafPaths al₂) := by
              conv_lhs => rw [leafPaths_append, leafPaths_cons, blockOf_obj_cons]
            have hR : leafPaths al
                = leafPaths al₁
                  ++ ((leafPaths (e :: es)).map (fun pv => (k :: pv.1, pv.2))
                      ++ leafPaths al₂) := by
              conv_lhs => rw [hdec, leafPaths_append, leafPaths_cons, blockOf_obj_cons]
            rw [hL, hR]
            have hmapped : ((leafPaths (a'' :: t'')).map
                  (fun pv => (k :: pv.1, pv.2))).Perm
                ((k :: k2 :: rest, x)
                  :: (leafPaths (e :: es)).map (fun pv => (k :: pv.1, pv.2))) := by
              have h := hperm''.map (fun pv : List String × JVal => (k :: pv.1, pv.2))
              simp only [List.map_cons] at h
              exact h
            refine (List.Perm.append_left (leafPaths al₁)
              (hmapped.append_right (leafPaths al₂))).trans ?_
            rw [List.cons_append]
            exact List.perm_middle
    | none =>
      have hfresh : wfVal (JVal.obj ([] : List (String × JVal))) = true := by
        simp [wfVal, wfEntries, keysUniq]
      have hfree0 : ∀ qv ∈ leafPaths ([] : List (String × JVal)),
          ¬ (k2 :: rest) <+: qv.1 ∧ ¬ qv.1 <+: (k2 :: rest) := by
        intro qv hqm
        rw [leafPaths] at hqm
        exact absurd hqm (List.not_mem_nil qv)
      obtain ⟨al'', hEq'', hwf'', hperm''⟩ :=
        insertWalk_paths (k2 :: rest) [] x hfresh (by simp) hgood2 hleaf hwx hfree0
      rw [List.map_cons] at hEq''
      have hnil : leafPaths ([] : List (String × JVal)) = [] := by rw [leafPaths]
      rw [hnil] at hperm''
      have hne'' : al'' ≠ [] := by
        intro h0
        subst h0
        rw [hnil] at hperm''
        exact absurd hperm''.symm.eq_nil (by simp)
      obtain ⟨a'', t'', rfl⟩ := List.exists_cons_of_ne_nil hne''
      have hEfull : insertWalk (JVal.obj al)
          (FKey.ks k :: FKey.ks k2 :: List.map FKey.ks rest) x
          = JVal.obj (al ++ [(k, JVal.obj (a'' :: t''))]) := by
        rw [insertWalk_fresh_obj k2 (List.map FKey.ks rest) x hlk, hEq'',
          setObjKey_fresh al k _ hlk]
      refine ⟨al ++ [(k, JVal.obj (a'' :: t''))], hEfull, ?_, ?_⟩
      · simp only [wfVal, Bool.and_eq_true]
        constructor
        · rw [wfEntries_append]
          simp only [Bool.and_eq_true]
          exact ⟨hwe, by simp [wfEntries, hgk, hwf'']⟩
        · rw [keysUniq_iff_nodup]
          simp only [List.map_append, List.map_cons, List.map_nil]
          rw [List.nodup_append]
          refine ⟨(keysUniq_iff_nodup _).mp hku, List.nodup_singleton _, ?_⟩
          intro a ha hb
          rw [List.mem_singleton] at hb
          subst hb
          exact (lookupObj_none_iff al a).mp hlk ha
      · rw [leafPaths_append, leafPaths_cons, blockOf_obj_cons, hnil, List.append_nil]
        have hmapped : ((leafPaths (a'' :: t'')).map
              (fun pv => (k :: pv.1, pv.2))).Perm [(k :: k2 :: rest, x)] := by
          have h := hperm''.map (fun pv : List String × JVal => (k :: pv.1, pv.2))
          simp only [List.map_cons, List.map_nil] at h
          exact h
        exact (List.Perm.append_left _ hmapped).trans (List.perm_append_singleton _ _)

/-- Folding insertions of pairwise prefix-free good paths into a
wellformed object accumulates exactly those leaf paths. -/
theorem buildF_paths :
    ∀ (M : List (List String × JVal)) (al : List (String × JVal)),
    (∀ pv ∈ M, pv.1 ≠ [] ∧ (∀ s ∈ pv.1, goodKey s = true) ∧
      leafLike pv.2 = true ∧ wfVal pv.2 = true) →
    List.Pairwise PFree M →
    wfVal (JVal.obj al) = true →
    (∀ m ∈ M, ∀ qv ∈ leafPaths al, ¬ m.1 <+: qv.1 ∧ ¬ qv.1 <+: m.1) →
    ∃ al' : List (String × JVal),
      buildF M (JVal.obj al) = JVal.obj al' ∧
      wfVal (JVal.obj al') = true ∧
      (leafPaths al').Perm (M ++ leafPaths al)
  | [], al, _, _, hw, _ =>
    ⟨al, rfl, hw, by rw [List.nil_append]⟩
  | (p, x) :: M', al, hfacts, hpw, hw, hfree => by
    obtain ⟨hne, hgood, hleaf, hwx⟩ := hfacts (p, x) (List.mem_cons_self _ _)
    obtain ⟨al1, hEq, hwf1, hperm1⟩ :=
      insertWalk_paths p al x hw hne hgood hleaf hwx
        (hfree (p, x) (List.mem_cons_self _ _))
    have hfree' : ∀ m ∈ M', ∀ qv ∈ leafPaths al1,
        ¬ m.1 <+: qv.1 ∧ ¬ qv.1 <+: m.1 := by
      intro m hm qv hqv
      have hqv' := hperm1.mem_iff.mp hqv
      rcases List.mem_cons.mp hqv' with rfl | hqv'
      · have hpf := (List.pairwise_cons.mp hpw).1 m hm
        exact ⟨hpf.2, hpf.1⟩
      · exact hfree m (List.mem_cons_of_mem _ hm) qv hqv'
    obtain ⟨al2, hEq2, hwf2, hperm2⟩ := buildF_paths M' al1
      (fun pv hm => hfacts pv (List.mem_cons_of_mem _ hm))
      (List.pairwise_cons.mp hpw).2 hwf1 hfree'
    refine ⟨al2, by rw [buildF, hEq]; exact hEq2, hwf2, ?_⟩
    refine hperm2.trans ?_
    refine (List.Perm.append_left M' hperm1).trans ?_
    rw [List.cons_append]
    exact List.perm_middle

/-- The tail-paths contributed under one key of a flattened object:
a nonempty object contributes its leaf paths, anything else itself at
the empty path. -/
def tailsOf : JVal → List (List String × JVal)
  | JVal.obj (e :: es) => leafPaths (e :: es)
  | v => [([], v)]

/-- Restrict leaf paths to those headed by `k`, dropping the head. -/
def filterK (k : String) (L : List (List String × JVal)) :
    List (List String × JVal) :=
  L.filterMap (fun pv =>
    match pv.1 with
    | [] => none
    | k' :: t => if k' = k then some (t, pv.2) else none)

theorem filterK_append (k : String) (L₁ L₂ : List (List String × JVal)) :
    filterK k (L₁ ++ L₂) = filterK k L₁ ++ filterK k L₂ :=
  List.filterMap_append _ _ _

theorem heads_ne_filterK (L : List (List String × JVal)) (k : String)
    (h : ∀ qv ∈ L, ∀ t, qv.1 ≠ k :: t) : filterK k L = [] := by
  rw [filterK, List.filterMap_eq_nil]
  intro pv hm
  cases hp : pv.1 with
  | nil => simp [hp]
  | cons k' t =>
    simp only [hp]
    rw [if_neg]
    intro he
    exact h pv hm t (by rw [hp, he])

theorem filterK_of_keys {al : List (String × JVal)} {k : String}
    (hks : k ∉ al.map Prod.fst) : filterK k (leafPaths al) = [] := by
  apply heads_ne_filterK
  intro qv hm t hq
  obtain ⟨k', t', ht', hk'⟩ := leafPaths_head_mem al qv hm
  rw [ht'] at hq
  injection hq with h1 h2
  exact hks (h1 ▸ hk')

theorem tailsOf_ne_nil (v : JVal) : tailsOf v ≠ [] := by
  cases v
  case obj l =>
    cases l with
    | nil => simp [tailsOf]
    | cons e es =>
      cases e with
      | mk k2 v2 =>
        simp only [tailsOf]
        exact leafPaths_cons_ne_nil k2 v2 es
  all_goals simp [tailsOf]

theorem filterK_blockOf_self (k : String) (v : JVal) :
    filterK k (blockOf k v) = tailsOf v := by
  cases v
  case obj l =>
    cases l with
    | nil => simp [blockOf, filterK, tailsOf]
    | cons e es =>
      rw [blockOf_obj_cons]
      show List.filterMap _ (List.map _ _) = tailsOf (JVal.obj (e :: es))
      rw [List.filterMap_map]
      have hfun : ((fun pv : List String × JVal =>
          match pv.1 with
          | [] => none
          | k' :: t => if k' = k then some (t, pv.2) else none)
          ∘ (fun pv : List String × JVal => (k :: pv.1, pv.2))) = some := by
        funext pv
        simp [Function.comp]
      rw [hfun, List.filterMap_some]
      simp [tailsOf]
  all_goals simp [blockOf, filterK, tailsOf]

theorem lookupObj_mem :
    ∀ {al : List (String × JVal)} {k : String} {v : JVal},
      lookupObj al k = some v → (k, v) ∈ al := by
  intro al
  induction al with
  | nil => intro k v h; simp [lookupObj] at h
  | cons a rest ih =>
    intro k v h
    cases a with
    | mk a1 a2 =>
      rw [lookupObj] at h
      by_cases he : a1 = k
      · subst he
        rw [if_pos rfl] at h
        injection h with h
        subst h
        exact List.mem_cons_self _ _
      · rw [if_neg he] at h
        exact List.mem_cons_of_mem _ (ih h)

theorem lookupObj_of_mem_nodup :
    ∀ {al : List (String × JVal)} {k : String} {v : JVal},
      keysUniq (al.map Prod.fst) = true → (k, v) ∈ al → lookupObj al k = some v := by
  intro al
  induction al with
  | nil => intro k v _ h; simp at h
  | cons a rest ih =>
    intro k v hku hm
    cases a with
    | mk a1 a2 =>
      simp only [List.map_cons] at hku
      obtain ⟨hnotin, hku'⟩ := keysUniq_parts hku
      rw [lookupObj]
      rcases List.mem_cons.mp hm with he | hm'
      · injection he with h1 h2
        subst h1
        subst h2
        rw [if_pos rfl]
      · by_cases heq : a1 = k
        · exfalso
          apply hnotin
          rw [heq]
          exact List.mem_map.mpr ⟨(k, v), hm', rfl⟩
        · rw [if_neg heq]
          exact ih hku' hm'

theorem filterK_lookup {al : List (String × JVal)} {k : String} {v : JVal}
    (hku : keysUniq (al.map Prod.fst) = true)
    (hlk : lookupObj al k = some v) :
    filterK k (leafPaths al) = tailsOf v := by
  obtain ⟨al₁, al₂, hdec, -, -⟩ := setObjKey_replace_decomp al k v v hlk
  have hnd : (al.map Prod.fst).Nodup := (keysUniq_iff_nodup _).mp hku
  rw [hdec] at hnd
  simp only [List.map_append, List.map_cons] at hnd
  rw [List.nodup_append] at hnd
  obtain ⟨hnd1, hnd2, hdisj⟩ := hnd
  have hk1 : k ∉ al₁.map Prod.fst := fun hm => hdisj hm (List.mem_cons_self _ _)
  have hk2 : k ∉ al₂.map Prod.fst := (List.nodup_cons.mp hnd2).1
  rw [hdec, leafPaths_append, leafPaths_cons, filterK_append, filterK_append,
    filterK_of_keys hk1, filterK_blockOf_self, filterK_of_keys hk2]
  simp

theorem filterK_none {al : List (String × JVal)} {k : String}
    (hlk : lookupObj al k = none) : filterK k (leafPaths al) = [] :=
  filterK_of_keys ((lookupObj_none_iff al k).mp hlk)

theorem canonO_eq_map :
    ∀ (l : List (String × JVal)), canonO l = l.map (fun kv => (kv.1, canon kv.2))
  | [] => rfl
  | (k, v) :: r => by rw [canonO, canonO_eq_map r]; rfl

theorem wfVal_of_mem :
    ∀ {al : List (String × JVal)} {k : String} {v : JVal},
      wfEntries al = true → (k, v) ∈ al → wfVal v = true := by
  intro al
  induction al with
  | nil => intro k v _ h; simp at h
  | cons a rest ih =>
    intro k v hw hm
    cases a with
    | mk a1 a2 =>
      obtain ⟨-, hwa, hwr⟩ := wfEntries_parts hw
      rcases List.mem_cons.mp hm with he | hm'
      · injection he with h1 h2
        subst h2
        exact hwa
      · exact ih hwr hm'

theorem sizeJ_mem_le :
    ∀ {al : List (String × JVal)} {k : String} {v : JVal},
      (k, v) ∈ al → sizeJ v ≤ sizeO al := by
  intro al
  induction al with
  | nil => intro k v h; simp at h
  | cons a rest ih =>
    intro k v hm
    cases a with
    | mk a1 a2 =>
      rcases List.mem_cons.mp hm with he | hm'
      · injection he with h1 h2
        subst h2
        simp only [sizeO]
        omega
      · have := ih hm'
        have h2 := sizeJ_pos a2
        simp only [sizeO]
        omega

theorem charListLe_total : ∀ (l1 l2 : List Char),
    charListLe l1 l2 = true ∨ charListLe l2 l1 = true
  | [], _ => Or.inl rfl
  | _ :: _, [] => Or.inr rfl
  | a :: as, b :: bs => by
    by_cases he : a = b
    · subst he
      rcases charListLe_total as bs with h | h
      · exact Or.inl (by simp [charListLe, h])
      · exact Or.inr (by simp [charListLe, h])
    · have hne : a.toNat ≠ b.toNat := fun hc => he (char_eq_of_toNat hc)
      rcases Nat.lt_or_ge a.toNat b.toNat with h | h
      · exact Or.inl (by simp [charListLe, he, h])
      · have h' : b.toNat < a.toNat := Nat.lt_of_le_of_ne h (Ne.symm hne)
        exact Or.inr (by simp [charListLe, Ne.symm he, h'])

theorem charListLe_antisymm : ∀ (l1 l2 : List Char),
    charListLe l1 l2 = true → charListLe l2 l1 = true → l1 = l2
  | [], [], _, _ => rfl
  | [], _ :: _, _, h2 => by simp [charListLe] at h2
  | _ :: _, [], h1, _ => by simp [charListLe] at h1
  | a :: as, b :: bs, h1, h2 => by
    by_cases he : a = b
    · subst he
      simp only [charListLe, if_pos rfl] at h1 h2
      rw [charListLe_antisymm as bs h1 h2]
    · simp only [charListLe, if_neg he, if_neg (Ne.symm he), decide_eq_true_eq] at h1 h2
      omega

theorem charListLe_trans : ∀ (l1 l2 l3 : List Char),
    charListLe l1 l2 = true → charListLe l2 l3 = true → charListLe l1 l3 = true
  | [], _, _, _, _ => rfl
  | _ :: _, [], _, h1, _ => by simp [charListLe] at h1
  | _ :: _, _ :: _, [], _, h2 => by simp [charListLe] at h2
  | a :: as, b :: bs, c :: cs, h1, h2 => by
    by_cases hab : a = b
    · subst hab
      simp only [charListLe, if_pos rfl] at h1
      by_cases hac : a = c
      · subst hac
        simp only [charListLe, if_pos rfl] at h2 ⊢
        exact charListLe_trans as bs cs h1 h2
      · simp only [charListLe, if_neg hac] at h2 ⊢
        exact h2
    · simp only [charListLe, if_neg hab, decide_eq_true_eq] at h1
      by_cases hbc : b = c
      · subst hbc
        simp only [charListLe, if_neg hab, decide_eq_true_eq]
        exact h1
      · simp only [charListLe, if_neg hbc, decide_eq_true_eq] at h2
        have hac : a.toNat < c.toNat := Nat.lt_trans h1 h2
        have hane : a ≠ c := fun he => by subst he; omega
        simp only [charListLe, if_neg hane, decide_eq_true_eq]
        exact hac

theorem strLeb_total (a b : String) : strLeb a b = true ∨ strLeb b a = true :=
  charListLe_total _ _

theorem strLeb_antisymm {a b : String} (h1 : strLeb a b = true)
    (h2 : strLeb b a = true) : a = b := by
  have h3 := charListLe_antisymm _ _ h1 h2
  have h4 : String.mk a.data = String.mk b.data := congrArg _ h3
  simpa using h4

theorem strLeb_trans {a b c : String} (h1 : strLeb a b = true)
    (h2 : strLeb b c = true) : strLeb a c = true :=
  charListLe_trans _ _ _ h1 h2

theorem insertByKey_perm (x : String × JVal) :
    ∀ l, (insertByKey x l).Perm (x :: l)
  | [] => List.Perm.refl _
  | y :: ys => by
    rw [insertByKey]
    split
    · exact List.Perm.refl _
    · exact ((insertByKey_perm x ys).cons y).trans (List.Perm.swap x y ys)

theorem sortByKey_perm : ∀ l, (sortByKey l).Perm l
  | [] => List.Perm.refl _
  | x :: xs => by
    rw [sortByKey]
    exact (insertByKey_perm x (sortByKey xs)).trans ((sortByKey_perm xs).cons x)

theorem insertByKey_pairwise (x : String × JVal) :
    ∀ l, List.Pairwise (fun a b : String × JVal => strLeb a.1 b.1 = true) l →
      List.Pairwise (fun a b : String × JVal => strLeb a.1 b.1 = true)
        (insertByKey x l)
  | [], _ => List.pairwise_singleton _ _
  | y :: ys, h => by
    rw [insertByKey]
    obtain ⟨hy, hys⟩ := List.pairwise_cons.mp h
    split
    · rename_i hxy
      refine List.pairwise_cons.mpr ⟨?_, h⟩
      intro b hb
      rcases List.mem_cons.mp hb with rfl | hb
      · exact hxy
      · exact strLeb_trans hxy (hy b hb)
    · rename_i hxy
      have hyx : strLeb y.1 x.1 = true := by
        rcases strLeb_total x.1 y.1 with h' | h'
        · exact absurd h' hxy
        · exact h'
      refine List.pairwise_cons.mpr ⟨?_, insertByKey_pairwise x ys hys⟩
      intro b hb
      rcases List.mem_cons.mp ((insertByKey_perm x ys).mem_iff.mp hb) with rfl | hb'
      · exact hyx
      · exact hy b hb'

theorem sortByKey_pairwise :
    ∀ l, List.Pairwise (fun a b : String × JVal => strLeb a.1 b.1 = true)
      (sortByKey l)
  | [] => List.Pairwise.nil
  | x :: xs => by
    rw [sortByKey]
    exact insertByKey_pairwise x (sortByKey xs) (sortByKey_pairwise xs)

theorem lookup_tails_transfer {al bl : List (String × JVal)}
    (hkua : keysUniq (al.map Prod.fst) = true)
    (hkub : keysUniq (bl.map Prod.fst) = true)
    (hpp : (leafPaths al).Perm (leafPaths bl)) {k : String} {u₁ : JVal}
    (hl1 : lookupObj al k = some u₁) :
    ∃ u₂, lookupObj bl k = some u₂ ∧ (tailsOf u₁).Perm (tailsOf u₂) := by
  have hf1 : filterK k (leafPaths al) = tailsOf u₁ := filterK_lookup hkua hl1
  have hfp : (filterK k (leafPaths al)).Perm (filterK k (leafPaths bl)) :=
    hpp.filterMap _
  cases hl2 : lookupObj bl k with
  | none =>
    rw [hf1, filterK_none hl2] at hfp
    exact absurd hfp.eq_nil (tailsOf_ne_nil u₁)
  | some u₂ =>
    exact ⟨u₂, rfl, by rw [← hf1, ← filterK_lookup hkub hl2]; exact hfp⟩

/-- Strict key order on object entries: the canonical sort order with
distinct keys. -/
def keyLt (a b : String × JVal) : Prop := strLeb a.1 b.1 = true ∧ a.1 ≠ b.1

instance : IsAntisymm (String × JVal) keyLt :=
  ⟨fun _ _ hab hba => (hab.2 (strLeb_antisymm hab.1 hba.1)).elim⟩

theorem sorted_keyLt (l : List (String × JVal))
    (hnd : (l.map Prod.fst).Nodup)
    (hpw : List.Pairwise (fun a b : String × JVal => strLeb a.1 b.1 = true) l) :
    List.Pairwise keyLt l := by
  have hne : List.Pairwise (fun a b : String × JVal => a.1 ≠ b.1) l :=
    List.pairwise_map.mp hnd
  exact hpw.and hne

/-- Wellformed objects whose leaf paths agree up to order have the same
canonical form. -/
theorem canon_tails_ext :
    ∀ (n : Nat) (v w : JVal), sizeJ v + sizeJ w ≤ n →
      wfVal v = true → wfVal w = true →
      (tailsOf v).Perm (tailsOf w) → canon v = canon w := by
  intro n
  induction n with
  | zero =>
    intro v w hn _ _ _
    have h1 := sizeJ_pos v
    have h2 := sizeJ_pos w
    omega
  | succ n ih =>
    intro v w hn hwv hww hperm
    have hleafleaf : ∀ v' w' : JVal, tailsOf v' = [([], v')] →
        tailsOf w' = [([], w')] → (tailsOf v').Perm (tailsOf w') → v' = w' := by
      intro v' w' hv hw hp
      rw [hv, hw] at hp
      have hm : (([], v') : List String × JVal) ∈ [(([], w') : List String × JVal)] :=
        hp.mem_iff.mp (by simp)
      simpa using hm
    have hmix : ∀ (v' : JVal) (e : String × JVal) (es : List (String × JVal)),
        tailsOf v' = [([], v')] → wfEntries (e :: es) = true →
        ¬ (tailsOf v').Perm (tailsOf (JVal.obj (e :: es))) := by
      intro v' e es hv hwe hp
      rw [hv] at hp
      have hm : (([] : List String), v') ∈ tailsOf (JVal.obj (e :: es)) :=
        hp.mem_iff.mp (by simp)
      simp only [tailsOf] at hm
      obtain ⟨h1, -, -, -⟩ := leafPaths_facts (e :: es) hwe _ hm
      exact h1 rfl
    have hshape : ∀ u : JVal, wfVal u = true →
        tailsOf u = [([], u)] ∨ ∃ e es, u = JVal.obj (e :: es) := by
      intro u hu
      cases u
      case obj l =>
        cases l with
        | nil => exact Or.inl rfl
        | cons e es => exact Or.inr ⟨e, es, rfl⟩
      case arr l => simp [wfVal] at hu
      all_goals exact Or.inl rfl
    rcases hshape v hwv with hv | ⟨e1, es1, rfl⟩
    · rcases hshape w hww with hw | ⟨e2, es2, rfl⟩
      · rw [hleafleaf v w hv hw hperm]
      · exact absurd hperm (hmix v e2 es2 hv (wfVal_obj_parts hww).1)
    · rcases hshape w hww with hw | ⟨e2, es2, rfl⟩
      · exact absurd hperm.symm (hmix w e1 es1 hw (wfVal_obj_parts hwv).1)
      · obtain ⟨hwe1, hku1⟩ := wfVal_obj_parts hwv
        obtain ⟨hwe2, hku2⟩ := wfVal_obj_parts hww
        simp only [tailsOf] at hperm
        have hv1 : sizeJ (JVal.obj (e1 :: es1)) = 1 + sizeO (e1 :: es1) := by
          rw [sizeJ]
        have hv2 : sizeJ (JVal.obj (e2 :: es2)) = 1 + sizeO (e2 :: es2) := by
          rw [sizeJ]
        have hmemiff : ∀ z : String × JVal,
            z ∈ canonO (e1 :: es1) ↔ z ∈ canonO (e2 :: es2) := by
          intro z
          constructor
          · intro hz
            rw [canonO_eq_map] at hz
            obtain ⟨kv, hkv, rfl⟩ := List.mem_map.mp hz
            obtain ⟨u₂, hl2, htp⟩ := lookup_tails_transfer hku1 hku2 hperm
              (lookupObj_of_mem_nodup hku1 (by simpa using hkv))
            have hs1 : sizeJ kv.2 ≤ sizeO (e1 :: es1) :=
              sizeJ_mem_le (show (kv.1, kv.2) ∈ _ from by simpa using hkv)
            have hs2 : sizeJ u₂ ≤ sizeO (e2 :: es2) := sizeJ_mem_le (lookupObj_mem hl2)
            have hwu1 : wfVal kv.2 = true := wfVal_of_mem hwe1 (by simpa using hkv)
            have hwu2 : wfVal u₂ = true := wfVal_of_mem hwe2 (lookupObj_mem hl2)
            have hcan : canon kv.2 = canon u₂ := ih kv.2 u₂ (by omega) hwu1 hwu2 htp
            rw [canonO_eq_map]
            refine List.mem_map.mpr ⟨(kv.1, u₂), lookupObj_mem hl2, ?_⟩
            simp [hcan]
          · intro hz
            rw [canonO_eq_map] at hz
            obtain ⟨kv, hkv, rfl⟩ := List.mem_map.mp hz
            obtain ⟨u₂, hl2, htp⟩ := lookup_tails_transfer hku2 hku1 hperm.symm
              (lookupObj_of_mem_nodup hku2 (by simpa using hkv))
            have hs1 : sizeJ kv.2 ≤ sizeO (e2 :: es2) :=
              sizeJ_mem_le (show (kv.1, kv.2) ∈ _ from by simpa using hkv)
            have hs2 : sizeJ u₂ ≤ sizeO (e1 :: es1) := sizeJ_mem_le (lookupObj_mem hl2)
            have hwu1 : wfVal kv.2 = true := wfVal_of_mem hwe2 (by simpa using hkv)
            have hwu2 : wfVal u₂ = true := wfVal_of_mem hwe1 (lookupObj_mem hl2)
            have hcan : canon kv.2 = canon u₂ := ih kv.2 u₂ (by omega) hwu1 hwu2 htp
            rw [canonO_eq_map]
            refine List.mem_map.mpr ⟨(kv.1, u₂), lookupObj_mem hl2, ?_⟩
            simp [hcan]
        have hkeys1 : (canonO (e1 :: es1)).map Prod.fst = (e1 :: es1).map Prod.fst := by
          rw [canonO_eq_map, List.map_map]
          exact List.map_congr_left (fun kv _ => rfl)
        have hkeys2 : (canonO (e2 :: es2)).map Prod.fst = (e2 :: es2).map Prod.fst := by
          rw [canonO_eq_map, List.map_map]
          exact List.map_congr_left (fun kv _ => rfl)
        have hnd1 : (canonO (e1 :: es1)).Nodup := by
          apply List.Nodup.of_map Prod.fst
          rw [hkeys1]
          exact (keysUniq_iff_nodup _).mp hku1
        have hnd2 : (canonO (e2 :: es2)).Nodup := by
          apply List.Nodup.of_map Prod.fst
          rw [hkeys2]
          exact (keysUniq_iff_nodup _).mp hku2
        have hpermC : (canonO (e1 :: es1)).Perm (canonO (e2 :: es2)) :=
          (List.perm_ext_iff_of_nodup hnd1 hnd2).mpr hmemiff
        have hsorted1 : List.Pairwise keyLt (sortByKey (canonO (e1 :: es1))) := by
          apply sorted_keyLt
          · exact (((sortByKey_perm _).map Prod.fst).nodup_iff).mpr
              (by rw [hkeys1]; exact (keysUniq_iff_nodup _).mp hku1)
          · exact sortByKey_pairwise _
        have hsorted2 : List.Pairwise keyLt (sortByKey (canonO (e2 :: es2))) := by
          apply sorted_keyLt
          · exact (((sortByKey_perm _).map Prod.fst).nodup_iff).mpr
              (by rw [hkeys2]; exact (keysUniq_iff_nodup _).mp hku2)
          · exact sortByKey_pairwise _
        show canon (JVal.obj (e1 :: es1)) = canon (JVal.obj (e2 :: es2))
        simp only [canon]
        refine congrArg JVal.obj ?_
        exact List.eq_of_perm_of_sorted
          ((sortByKey_perm _).trans (hpermC.trans (sortByKey_perm _).symm))
          hsorted1 hsorted2

/-- flat's unflatten of flat's flatten of a wellformed nested plain
object returns the same object up to canonical key order. -/
theorem unflatten_flatten_canon (l : List (String × JVal))
    (hw : wfVal (JVal.obj l) = true) :
    canon (unflatten (JVal.obj (flattenTop (JVal.obj l)))) = canon (JVal.obj l) := by
  obtain ⟨L', hLperm, hfacts, hpw, hEq⟩ := unflatten_obj_buildF l hw
  have hwnil : wfVal (JVal.obj ([] : List (String × JVal))) = true := by
    simp [wfVal, wfEntries, keysUniq]
  have hfree0 : ∀ m ∈ L', ∀ qv ∈ leafPaths ([] : List (String × JVal)),
      ¬ m.1 <+: qv.1 ∧ ¬ qv.1 <+: m.1 := by
    intro m _ qv hqv
    rw [leafPaths] at hqv
    exact absurd hqv (List.not_mem_nil qv)
  obtain ⟨al', hEq', hwf', hperm'⟩ := buildF_paths L' [] hfacts hpw hwnil hfree0
  rw [hEq, hEq']
  have hnil : leafPaths ([] : List (String × JVal)) = [] := by rw [leafPaths]
  rw [hnil, List.append_nil] at hperm'
  have hperm2 : (leafPaths al').Perm (leafPaths l) := hperm'.trans hLperm
  cases al' with
  | nil =>
    cases l with
    | nil => rfl
    | cons e es =>
      rw [hnil] at hperm2
      cases e with
      | mk k v => exact absurd hperm2.symm.eq_nil (leafPaths_cons_ne_nil k v es)
  | cons a' t' =>
    cases l with
    | nil =>
      rw [hnil] at hperm2
      cases a' with
      | mk k v => exact absurd hperm2.eq_nil (leafPaths_cons_ne_nil k v t')
    | cons e es =>
      apply canon_tails_ext
        (sizeJ (JVal.obj (a' :: t')) + sizeJ (JVal.obj (e :: es)))
        _ _ (Nat.le_refl _) hwf' hw
      simp only [tailsOf]
      exact hperm2

/-- C8 counterexample: a nested plain object whose key contains the
flattening delimiter '.' does not survive the hmset/hgetall round trip:
{"a.b": 1} is stored as the flat field "a.b" and hgetall's unflatten
delivers {"a": {"b": 1}}, not {"a.b": 1} — not even up to deep
equality of objects. -/
theorem flat_dot_key_breaks_roundtrip :
    (hgetallCb none (JVal.obj (flattenTop (JVal.obj [("a.b", JVal.num 1)])))).2
      = JVal.obj [("a", JVal.obj [("b", JVal.num 1)])] ∧
    canon (hgetallCb none
        (JVal.obj (flattenTop (JVal.obj [("a.b", JVal.num 1)])))).2
      ≠ canon (JVal.obj [("a.b", JVal.num 1)]) :=
  ⟨by decide, by decide⟩

/-- C8 (amended): for every wellformed nested plain object value — keys
free of the '.' delimiter and not numeric, pairwise distinct within each
object, and no arrays — the value hgetall's callback delivers from the
flat field map hmset stored is the original object up to deep equality
(canonical key order), i.e. canon (unflatten (flatten v)) = canon v. -/
theorem hmset_hgetall_roundtrip_canon (l : List (String × JVal))
    (hw : wfVal (JVal.obj l) = true) :
    canon (hgetallCb none (JVal.obj (flattenTop (JVal.obj l)))).2
      = canon (JVal.obj l) :=
  unflatten_flatten_canon l hw

/-- Witness for the amended C8 theorem at a concrete nested object. -/
theorem hmset_hgetall_roundtrip_canon_witness :
    wfVal (JVal.obj [("a", JVal.obj [("b", JVal.num 1)]), ("c", JVal.str "x")])
      = true ∧
    canon (hgetallCb none (JVal.obj (flattenTop
        (JVal.obj [("a", JVal.obj [("b", JVal.num 1)]), ("c", JVal.str "x")])))).2
      = canon (JVal.obj [("a", JVal.obj [("b", JVal.num 1)]), ("c", JVal.str "x")]) :=
  ⟨by decide, hmset_hgetall_roundtrip_canon _ (by decide)⟩

end RedisClients
